import Mathlib

/-!
Verification of the JSON Configuration Visualizer (json_visualizer.py).

The development shallowly embeds the data model and the core operations of
the application: Python values produced by json.load, the recursive
diff scorer diff_count, the heatmap matrix of display_heatmap, the path
assignment of build_tree_nodes and build_nested_frame, the search of
perform_search and search_in_widget, and the load_files batch loader.
-/

set_option maxHeartbeats 1600000

namespace JsonVis

/-- A Python value as produced by json.load: None, bool, int, float
(modelled as a rational number), str, list, and dict (an association list;
Python dicts produced by json.load have pairwise distinct keys). -/
inductive PyVal : Type where
  | none : PyVal
  | bool (b : Bool) : PyVal
  | int (n : Int) : PyVal
  | float (q : Rat) : PyVal
  | str (s : String) : PyVal
  | list (xs : List PyVal) : PyVal
  | dict (kvs : List (String × PyVal)) : PyVal

/-- Python d.get(k): the value at key k, or None when the key is absent. -/
def dget (kvs : List (String × PyVal)) (k : String) : PyVal :=
  match kvs.lookup k with
  | some v => v
  | Option.none => PyVal.none

/-- Python a[i] if i < len(a) else None. -/
def lget (xs : List PyVal) (i : Nat) : PyVal :=
  match xs.get? i with
  | some v => v
  | Option.none => PyVal.none

theorem sizeOf_snd_lt_of_mem {kvs : List (String × PyVal)} {k : String}
    {v : PyVal} (h : (k, v) ∈ kvs) : sizeOf v < sizeOf kvs := by
  induction kvs with
  | nil => cases h
  | cons hd tl ih =>
    rcases List.mem_cons.mp h with h1 | h2
    · cases h1; simp; omega
    · have := ih h2; simp; omega

theorem lookup_sizeOf_lt {kvs : List (String × PyVal)} {k : String}
    {v : PyVal} (h : kvs.lookup k = some v) : sizeOf v < sizeOf kvs := by
  induction kvs with
  | nil => simp [List.lookup] at h
  | cons hd tl ih =>
    obtain ⟨k1, v1⟩ := hd
    rw [List.lookup] at h
    by_cases hk : k == k1
    · simp [hk] at h; subst h; simp; omega
    · simp [hk] at h; have := ih h; simp; omega

theorem sizeOf_dget_lt (kvs : List (String × PyVal)) (k : String) :
    sizeOf (dget kvs k) < sizeOf (PyVal.dict kvs) := by
  unfold dget
  cases h : kvs.lookup k with
  | none =>
    simp only []
    cases kvs <;> simp
  | some v =>
    simp only []
    have := lookup_sizeOf_lt h
    simp
    omega

theorem sizeOf_mem_lt {xs : List PyVal} {v : PyVal} (h : v ∈ xs) :
    sizeOf v < sizeOf xs := by
  induction xs with
  | nil => cases h
  | cons hd tl ih =>
    rcases List.mem_cons.mp h with h1 | h2
    · subst h1; simp; omega
    · have := ih h2; simp; omega

theorem sizeOf_lget_lt (xs : List PyVal) (i : Nat) :
    sizeOf (lget xs i) < sizeOf (PyVal.list xs) := by
  unfold lget
  cases h : xs.get? i with
  | none =>
    simp only []
    cases xs <;> simp
  | some v =>
    simp only []
    have := sizeOf_mem_lt (List.get?_mem h)
    simp
    omega

/-- The integer value of a Python bool (bool is a subclass of int: True
compares equal to 1 and False to 0). -/
def boolInt (b : Bool) : Int := if b then 1 else 0

/-- Python == on values produced by json.load.  Numbers compare by value
across int, float and bool; None equals only None; strings compare by
content; lists compare elementwise; dicts compare as key-value sets;
values of unrelated kinds are unequal. -/
def pyEq (a b : PyVal) : Bool :=
  match a, b with
  | .none, .none => true
  | .bool x, .bool y => x == y
  | .bool x, .int n => boolInt x == n
  | .bool x, .float q => ((boolInt x : Int) : Rat) == q
  | .int m, .bool y => m == boolInt y
  | .int m, .int n => m == n
  | .int m, .float q => ((m : Int) : Rat) == q
  | .float p, .bool y => p == ((boolInt y : Int) : Rat)
  | .float p, .int n => p == ((n : Int) : Rat)
  | .float p, .float q => p == q
  | .str s, .str t => s == t
  | .list xs, .list ys =>
    xs.length == ys.length &&
      (List.range xs.length).all (fun i => pyEq (lget xs i) (lget ys i))
  | .dict xs, .dict ys =>
    (xs.map Prod.fst).all (fun k => (ys.lookup k).isSome) &&
      ((ys.map Prod.fst).all (fun k => (xs.lookup k).isSome) &&
        (xs.map Prod.fst).all (fun k => pyEq (dget xs k) (dget ys k)))
  | _, _ => false
termination_by sizeOf a + sizeOf b
decreasing_by
  · have h1 := sizeOf_lget_lt xs i
    have h2 := sizeOf_lget_lt ys i
    simp at h1 h2 ⊢
    omega
  · have h1 := sizeOf_dget_lt xs k
    have h2 := sizeOf_dget_lt ys k
    simp at h1 h2 ⊢
    omega

/-- The union of the key sets of two dicts, as iterated by
set(a.keys()) | set(b.keys()) in diff_count (each key once; summation
below is order independent). -/
def keyUnion (xs ys : List (String × PyVal)) : List String :=
  ((xs.map Prod.fst) ++ (ys.map Prod.fst)).dedup

/-- diff_count from json_visualizer.py: the recursive count of leaf
mismatches between two JSON values. -/
def diff_count (a b : PyVal) : Nat :=
  match a, b with
  | .none, .none => 0
  | .dict xs, .dict ys =>
    ((keyUnion xs ys).map (fun k => diff_count (dget xs k) (dget ys k))).sum
  | .list xs, .list ys =>
    ((List.range (max xs.length ys.length)).map
      (fun i => diff_count (lget xs i) (lget ys i))).sum
  | a, b => if pyEq a b then 0 else 1
termination_by sizeOf a + sizeOf b
decreasing_by
  · have h1 := sizeOf_dget_lt xs k
    have h2 := sizeOf_dget_lt ys k
    simp at h1 h2 ⊢
    omega
  · have h1 := sizeOf_lget_lt xs i
    have h2 := sizeOf_lget_lt ys i
    simp at h1 h2 ⊢
    omega

theorem diff_count_none_none : diff_count PyVal.none PyVal.none = 0 := by
  rw [diff_count.eq_def]

theorem diff_count_dict (xs ys : List (String × PyVal)) :
    diff_count (PyVal.dict xs) (PyVal.dict ys) =
      ((keyUnion xs ys).map (fun k => diff_count (dget xs k) (dget ys k))).sum := by
  rw [diff_count.eq_def]

theorem diff_count_list (xs ys : List PyVal) :
    diff_count (PyVal.list xs) (PyVal.list ys) =
      ((List.range (max xs.length ys.length)).map
        (fun i => diff_count (lget xs i) (lget ys i))).sum := by
  rw [diff_count.eq_def]

/-- Shape tests mirroring the isinstance checks of diff_count. -/
def isDictV : PyVal → Bool
  | .dict _ => true
  | _ => false

def isListV : PyVal → Bool
  | .list _ => true
  | _ => false

def isNoneV : PyVal → Bool
  | .none => true
  | _ => false

theorem diff_count_other (a b : PyVal)
    (hn : ¬(isNoneV a = true ∧ isNoneV b = true))
    (hd : ¬(isDictV a = true ∧ isDictV b = true))
    (hl : ¬(isListV a = true ∧ isListV b = true)) :
    diff_count a b = if pyEq a b then 0 else 1 := by
  rw [diff_count.eq_def]
  cases a <;> cases b <;> simp_all [isNoneV, isDictV, isListV]

theorem pyEq_comm_shape (a b : PyVal)
    (hd : ¬(isDictV a = true ∧ isDictV b = true))
    (hl : ¬(isListV a = true ∧ isListV b = true)) :
    pyEq a b = pyEq b a := by
  cases a <;> cases b <;>
    simp_all [pyEq, isDictV, isListV] <;>
    exact eq_comm

theorem diff_count_self (a : PyVal) : diff_count a a = 0 := by
  suffices H : ∀ (n : Nat) (a : PyVal), sizeOf a = n → diff_count a a = 0 from
    H (sizeOf a) a rfl
  intro n
  induction n using Nat.strong_induction_on with
  | _ n ih =>
    intro a hn
    subst hn
    cases a with
    | none => exact diff_count_none_none
    | dict kvs =>
      rw [diff_count_dict]
      apply List.sum_eq_zero
      intro x hx
      obtain ⟨k, hk, rfl⟩ := List.mem_map.mp hx
      exact ih _ (sizeOf_dget_lt kvs k) _ rfl
    | list xs =>
      rw [diff_count_list]
      apply List.sum_eq_zero
      intro x hx
      obtain ⟨i, hi, rfl⟩ := List.mem_map.mp hx
      exact ih _ (sizeOf_lget_lt xs i) _ rfl
    | bool b =>
      rw [diff_count_other _ _ (by simp [isNoneV]) (by simp [isDictV]) (by simp [isListV])]
      simp [pyEq]
    | int n =>
      rw [diff_count_other _ _ (by simp [isNoneV]) (by simp [isDictV]) (by simp [isListV])]
      simp [pyEq]
    | float q =>
      rw [diff_count_other _ _ (by simp [isNoneV]) (by simp [isDictV]) (by simp [isListV])]
      simp [pyEq]
    | str s =>
      rw [diff_count_other _ _ (by simp [isNoneV]) (by simp [isDictV]) (by simp [isListV])]
      simp [pyEq]

theorem keyUnion_comm_perm (xs ys : List (String × PyVal)) :
    (keyUnion xs ys).Perm (keyUnion ys xs) := by
  apply (List.perm_ext_iff_of_nodup (List.nodup_dedup _) (List.nodup_dedup _)).2
  intro k
  simp only [keyUnion, List.mem_dedup, List.mem_append]
  exact or_comm

theorem diff_count_comm (a b : PyVal) : diff_count a b = diff_count b a := by
  suffices H : ∀ (n : Nat) (a b : PyVal), sizeOf a + sizeOf b = n →
      diff_count a b = diff_count b a from H (sizeOf a + sizeOf b) a b rfl
  intro n
  induction n using Nat.strong_induction_on with
  | _ n ih =>
    intro a b hn
    subst hn
    cases a <;> cases b
    case none.none => rfl
    case dict.dict xs ys =>
      rw [diff_count_dict, diff_count_dict]
      have hcg : ∀ k ∈ keyUnion xs ys,
          diff_count (dget xs k) (dget ys k) = diff_count (dget ys k) (dget xs k) := by
        intro k _
        have h1 := sizeOf_dget_lt xs k
        have h2 := sizeOf_dget_lt ys k
        exact ih _ (by omega) _ _ rfl
      rw [List.map_congr_left hcg]
      exact ((keyUnion_comm_perm xs ys).map _).sum_eq
    case list.list xs ys =>
      rw [diff_count_list, diff_count_list, Nat.max_comm]
      apply congrArg
      apply List.map_congr_left
      intro i _
      have h1 := sizeOf_lget_lt xs i
      have h2 := sizeOf_lget_lt ys i
      exact ih _ (by omega) _ _ rfl
    all_goals
      rw [diff_count_other _ _ (by simp [isNoneV]) (by simp [isDictV]) (by simp [isListV]),
        diff_count_other _ _ (by simp [isNoneV]) (by simp [isDictV]) (by simp [isListV]),
        pyEq_comm_shape _ _ (by simp [isDictV]) (by simp [isListV])]

/-- C1: diff_count satisfies the recursive definition of the diff score
given in the spec: null against null scores 0; two objects score the sum
over the union of their key sets of the scores of the values (an absent
key is compared as the absent value, i.e. None); two arrays score the sum
over indices 0 to max(len a, len b) of the scores of the elements
(indices past an array's end compared as None); in every other case the
score is 0 when the values compare equal under Python equality and 1
otherwise. -/
theorem diff_count_matches_spec :
    diff_count PyVal.none PyVal.none = 0
    ∧ (∀ xs ys : List (String × PyVal),
        diff_count (PyVal.dict xs) (PyVal.dict ys) =
          ∑ k ∈ ((xs.map Prod.fst).toFinset ∪ (ys.map Prod.fst).toFinset),
            diff_count (dget xs k) (dget ys k))
    ∧ (∀ xs ys : List PyVal,
        diff_count (PyVal.list xs) (PyVal.list ys) =
          ∑ i ∈ Finset.range (max xs.length ys.length),
            diff_count (lget xs i) (lget ys i))
    ∧ (∀ a b : PyVal,
        ¬(isNoneV a = true ∧ isNoneV b = true) →
        ¬(isDictV a = true ∧ isDictV b = true) →
        ¬(isListV a = true ∧ isListV b = true) →
        diff_count a b = if pyEq a b then 0 else 1) := by
  refine ⟨diff_count_none_none, ?_, ?_, diff_count_other⟩
  · intro xs ys
    have hnd : (keyUnion xs ys).Nodup := by
      unfold keyUnion; exact List.nodup_dedup _
    rw [diff_count_dict, ← List.sum_toFinset _ hnd]
    apply Finset.sum_congr _ (fun _ _ => rfl)
    ext k
    simp [keyUnion, List.mem_dedup]
  · intro xs ys
    have hnd : (List.range (max xs.length ys.length)).Nodup := List.nodup_range _
    rw [diff_count_list, ← List.sum_toFinset _ hnd]
    apply Finset.sum_congr _ (fun _ _ => rfl)
    ext i
    simp

/-- Witness for C1: the scalar/mismatch branch at the concrete pair
1 and "x", two values of different kinds that are unequal, scores 1. -/
theorem diff_count_matches_spec_witness :
    diff_count (PyVal.int 1) (PyVal.str "x") = 1 := by
  rw [diff_count_matches_spec.2.2.2 (PyVal.int 1) (PyVal.str "x")
    (by simp [isNoneV]) (by simp [isDictV]) (by simp [isListV])]
  simp [pyEq]

/-- C2: the diff score of any value against itself is zero. -/
theorem diff_count_self_spec (a : PyVal) : diff_count a a = 0 :=
  diff_count_self a

/-- C3: the diff score is symmetric in its two arguments. -/
theorem diff_count_symm_spec (a b : PyVal) : diff_count a b = diff_count b a :=
  diff_count_comm a b

/-- C10: the scalar/mismatch branch of diff_count decides equality with
Python ==, so scalars that are numerically equal across JSON types score
0: an int and a float of the same numeric value, a bool and an int of the
same numeric value, a bool and a float of the same numeric value; in
particular 1 vs 1.0, true vs 1 and false vs 0 all score 0. -/
theorem diff_count_python_eq_spec :
    (∀ (n : Int) (q : Rat), (n : Rat) = q →
      diff_count (PyVal.int n) (PyVal.float q) = 0)
    ∧ (∀ (b : Bool) (n : Int), boolInt b = n →
      diff_count (PyVal.bool b) (PyVal.int n) = 0)
    ∧ (∀ (b : Bool) (q : Rat), ((boolInt b : Int) : Rat) = q →
      diff_count (PyVal.bool b) (PyVal.float q) = 0)
    ∧ diff_count (PyVal.int 1) (PyVal.float 1) = 0
    ∧ diff_count (PyVal.bool true) (PyVal.int 1) = 0
    ∧ diff_count (PyVal.bool false) (PyVal.int 0) = 0 := by
  have hif : ∀ (n : Int) (q : Rat), (n : Rat) = q →
      diff_count (PyVal.int n) (PyVal.float q) = 0 := by
    intro n q h
    rw [diff_count_other _ _ (by simp [isNoneV]) (by simp [isDictV]) (by simp [isListV])]
    simp [pyEq, h]
  have hbi : ∀ (b : Bool) (n : Int), boolInt b = n →
      diff_count (PyVal.bool b) (PyVal.int n) = 0 := by
    intro b n h
    rw [diff_count_other _ _ (by simp [isNoneV]) (by simp [isDictV]) (by simp [isListV])]
    simp [pyEq, h]
  have hbf : ∀ (b : Bool) (q : Rat), ((boolInt b : Int) : Rat) = q →
      diff_count (PyVal.bool b) (PyVal.float q) = 0 := by
    intro b q h
    rw [diff_count_other _ _ (by simp [isNoneV]) (by simp [isDictV]) (by simp [isListV])]
    simp [pyEq, h]
  exact ⟨hif, hbi, hbf, hif 1 1 (by norm_num), hbi true 1 (by simp [boolInt]),
    hbi false 0 (by simp [boolInt])⟩

/-- Witness for C10: 2 and 2.0 are numerically equal across int and
float, and their diff score is 0. -/
theorem diff_count_python_eq_spec_witness :
    diff_count (PyVal.int 2) (PyVal.float 2) = 0 :=
  diff_count_python_eq_spec.1 2 2 (by norm_num)

/-- One step of a structural position inside a JSON value: descend into
an object at a key, or into an array at an index. -/
inductive PathStep : Type where
  | key (k : String) : PathStep
  | idx (i : Nat) : PathStep

/-- A value is a leaf scalar (anything that is not an object or array). -/
def isScalarV : PyVal → Bool
  | .dict _ => false
  | .list _ => false
  | _ => true

/-- Read the value at a structural position, if the position exists. -/
def getPath : PyVal → List PathStep → Option PyVal
  | v, [] => some v
  | .dict kvs, .key k :: p =>
    match kvs.lookup k with
    | some v => getPath v p
    | Option.none => Option.none
  | .list xs, .idx i :: p =>
    match xs.get? i with
    | some v => getPath v p
    | Option.none => Option.none
  | _, _ => Option.none

/-- Python d[k] = v on a dict: replace the value stored at key k. -/
def dset : List (String × PyVal) → String → PyVal → List (String × PyVal)
  | [], _, _ => []
  | (k1, v1) :: rest, k, v =>
    if k == k1 then (k1, v) :: rest else (k1, v1) :: dset rest k v

/-- Replace the value at an existing structural position, leaving every
other position unchanged. -/
def setPath : PyVal → List PathStep → PyVal → Option PyVal
  | _, [], w => some w
  | .dict kvs, .key k :: p, w =>
    match kvs.lookup k with
    | some v =>
      match setPath v p w with
      | some v2 => some (.dict (dset kvs k v2))
      | Option.none => Option.none
    | Option.none => Option.none
  | .list xs, .idx i :: p, w =>
    match xs.get? i with
    | some v =>
      match setPath v p w with
      | some v2 => some (.list (xs.set i v2))
      | Option.none => Option.none
    | Option.none => Option.none
  | _, _, _ => Option.none

theorem dset_keys (kvs : List (String × PyVal)) (k : String) (v : PyVal) :
    (dset kvs k v).map Prod.fst = kvs.map Prod.fst := by
  induction kvs with
  | nil => rfl
  | cons hd tl ih =>
    obtain ⟨k1, v1⟩ := hd
    by_cases h : k == k1 <;> simp [dset, h, ih]

theorem lookup_dset_self {kvs : List (String × PyVal)} {k : String}
    {v0 : PyVal} (v : PyVal) (h : kvs.lookup k = some v0) :
    (dset kvs k v).lookup k = some v := by
  induction kvs with
  | nil => simp [List.lookup] at h
  | cons hd tl ih =>
    obtain ⟨k1, v1⟩ := hd
    by_cases hk : k == k1
    · simp [dset, hk, List.lookup]
    · rw [List.lookup] at h
      simp [hk] at h
      simp [dset, hk, List.lookup, ih h]

theorem lookup_dset_ne (kvs : List (String × PyVal)) (k k2 : String)
    (v : PyVal) (h : k2 ≠ k) : (dset kvs k v).lookup k2 = kvs.lookup k2 := by
  induction kvs with
  | nil => rfl
  | cons hd tl ih =>
    obtain ⟨k1, v1⟩ := hd
    by_cases hk : k == k1
    · have hne : (k2 == k1) = false := by
        have : k = k1 := by simpa using hk
        subst this
        simpa using h
      simp [dset, hk, List.lookup, hne]
    · by_cases hk2 : k2 == k1 <;> simp [dset, hk, List.lookup, hk2, ih]

theorem lookup_mem_keys {kvs : List (String × PyVal)} {k : String}
    {v : PyVal} (h : kvs.lookup k = some v) : k ∈ kvs.map Prod.fst := by
  induction kvs with
  | nil => simp [List.lookup] at h
  | cons hd tl ih =>
    obtain ⟨k1, v1⟩ := hd
    by_cases hk : k == k1
    · have : k = k1 := by simpa using hk
      simp [this]
    · rw [List.lookup] at h
      simp [hk] at h
      simp [ih h]

theorem sum_map_eq_one {α : Type} (L : List α) (f : α → Nat) (k0 : α)
    (hnd : L.Nodup) (hmem : k0 ∈ L) (hzero : ∀ k ∈ L, k ≠ k0 → f k = 0)
    (hone : f k0 = 1) : (L.map f).sum = 1 := by
  induction L with
  | nil => cases hmem
  | cons a l ih =>
    obtain ⟨hna, hndl⟩ := List.nodup_cons.mp hnd
    rcases List.mem_cons.mp hmem with h1 | h2
    · subst h1
      have hz : ((l.map f).sum = 0) := by
        apply List.sum_eq_zero
        intro x hx
        obtain ⟨k, hk, rfl⟩ := List.mem_map.mp hx
        exact hzero k (List.mem_cons_of_mem _ hk) (fun he => hna (he ▸ hk))
      simp [hone, hz]
    · have ha : f a = 0 :=
        hzero a (List.mem_cons_self _ _) (fun he => hna (he ▸ h2))
      have := ih hndl h2 (fun k hk => hzero k (List.mem_cons_of_mem _ hk))
      simp [ha, this]

theorem diff_count_setPath (p : List PathStep) :
    ∀ (a v w b : PyVal), getPath a p = some v → isScalarV v = true →
    isScalarV w = true → pyEq v w = false → setPath a p w = some b →
    diff_count a b = 1 := by
  induction p with
  | nil =>
    intro a v w b hget hsv hsw hne hset
    rw [getPath] at hget
    rw [setPath] at hset
    cases hget
    cases hset
    have hnn : ¬(isNoneV a = true ∧ isNoneV w = true) := by
      rintro ⟨h1, h2⟩
      cases a <;> simp [isNoneV] at h1
      cases w <;> simp [isNoneV] at h2
      simp [pyEq] at hne
    rw [diff_count_other _ _ hnn
      (by rintro ⟨h1, h2⟩; cases a <;> simp_all [isDictV, isScalarV])
      (by rintro ⟨h1, h2⟩; cases a <;> simp_all [isListV, isScalarV])]
    rw [hne]
    rfl
  | cons s p ih =>
    intro a v w b hget hsv hsw hne hset
    cases s with
    | key k =>
      cases a
      case dict kvs =>
        cases hlk : kvs.lookup k with
        | none =>
          simp only [getPath, hlk] at hget
          exact absurd hget (by simp)
        | some v1 =>
          simp only [getPath, hlk] at hget
          simp only [setPath, hlk] at hset
          cases hsp : setPath v1 p w with
          | none =>
            simp only [hsp] at hset
            exact absurd hset (by simp)
          | some v2 =>
            simp only [hsp] at hset
            cases hset
            have hterm : diff_count v1 v2 = 1 := ih v1 v w v2 hget hsv hsw hne hsp
            rw [diff_count_dict]
            apply sum_map_eq_one _ _ k
            · unfold keyUnion; exact List.nodup_dedup _
            · unfold keyUnion
              rw [List.mem_dedup, List.mem_append]
              exact Or.inl (lookup_mem_keys hlk)
            · intro k2 _ hk2
              have : dget (dset kvs k v2) k2 = dget kvs k2 := by
                unfold dget
                rw [lookup_dset_ne kvs k k2 v2 hk2]
              rw [this]
              exact diff_count_self _
            · have h1 : dget kvs k = v1 := by unfold dget; rw [hlk]
              have h2 : dget (dset kvs k v2) k = v2 := by
                unfold dget
                rw [lookup_dset_self v2 hlk]
              rw [h1, h2]
              exact hterm
      all_goals simp [getPath.eq_def] at hget
    | idx i =>
      cases a
      case list xs =>
        cases hlk : xs.get? i with
        | none =>
          simp only [getPath, hlk] at hget
          exact absurd hget (by simp)
        | some v1 =>
          simp only [getPath, hlk] at hget
          simp only [setPath, hlk] at hset
          cases hsp : setPath v1 p w with
          | none =>
            simp only [hsp] at hset
            exact absurd hset (by simp)
          | some v2 =>
            simp only [hsp] at hset
            cases hset
            have hterm : diff_count v1 v2 = 1 := ih v1 v w v2 hget hsv hsw hne hsp
            have hi : i < xs.length := by
              by_contra hbad
              rw [List.get?_eq_none.mpr (by omega)] at hlk
              exact absurd hlk (by simp)
            rw [diff_count_list]
            have hlen : (xs.set i v2).length = xs.length := List.length_set ..
            rw [hlen, Nat.max_self]
            apply sum_map_eq_one _ _ i
            · exact List.nodup_range _
            · exact List.mem_range.mpr hi
            · intro j _ hj
              have : lget (xs.set i v2) j = lget xs j := by
                unfold lget
                rw [List.get?_set_ne _ _ (fun he => hj he.symm)]
              rw [this]
              exact diff_count_self _
            · have h1 : lget xs i = v1 := by unfold lget; rw [hlk]
              have h2 : lget (xs.set i v2) i = v2 := by
                unfold lget
                rw [List.get?_set_eq_of_lt _ hi]
              rw [h1, h2]
              exact hterm
      all_goals simp [getPath.eq_def] at hget

/-- C4: for a JSON object, changing exactly one leaf scalar to a value it
does not compare equal to (under Python ==), all other positions
unchanged, yields a diff score of exactly 1 against the original — one
more than the score of the object against itself, which is 0. -/
theorem diff_count_one_leaf_spec (kvs : List (String × PyVal))
    (p : List PathStep) (v w b : PyVal)
    (hget : getPath (PyVal.dict kvs) p = some v)
    (hv : isScalarV v = true) (hw : isScalarV w = true)
    (hne : pyEq v w = false)
    (hset : setPath (PyVal.dict kvs) p w = some b) :
    diff_count (PyVal.dict kvs) (PyVal.dict kvs) = 0 ∧
      diff_count (PyVal.dict kvs) b = 1 :=
  ⟨diff_count_self _, diff_count_setPath p _ v w b hget hv hw hne hset⟩

/-- Witness for C4: changing the single leaf of the object with key "x"
from 1 to 2 yields diff score 1. -/
theorem diff_count_one_leaf_spec_witness :
    diff_count (PyVal.dict [("x", PyVal.int 1)]) (PyVal.dict [("x", PyVal.int 1)]) = 0 ∧
      diff_count (PyVal.dict [("x", PyVal.int 1)]) (PyVal.dict [("x", PyVal.int 2)]) = 1 :=
  diff_count_one_leaf_spec [("x", PyVal.int 1)] [PathStep.key "x"]
    (PyVal.int 1) (PyVal.int 2) (PyVal.dict [("x", PyVal.int 2)])
    rfl rfl rfl (by simp [pyEq]) rfl

/-- A loaded file, as stored in self.files: the base filename and the
parsed JSON value. -/
structure LoadedFile where
  name : String
  data : PyVal

/-- The top-level items of a loaded document.  display_tabs and
display_heatmap iterate data.items() / data.keys(): loaded roots are JSON
objects. -/
def rootItems : PyVal → List (String × PyVal)
  | .dict kvs => kvs
  | _ => []

/-- The row labels of the heatmap: sorted(set of every top-level key of
every loaded file), as computed in display_heatmap. -/
def heatmap_keys (files : List LoadedFile) : List String :=
  ((files.flatMap (fun f => (rootItems f.data).map Prod.fst)).dedup).insertionSort (· ≤ ·)

/-- The matrix computed by display_heatmap: one row per sorted key, one
column per file after the first, each cell diff_count of the base file's
value and that file's value at that key (missing keys read as None via
.get).  display_heatmap returns without drawing when at most one file is
loaded. -/
def heatmap_matrix : List LoadedFile → List (List Nat)
  | [] => []
  | [_] => []
  | base :: rest =>
    (heatmap_keys (base :: rest)).map (fun k =>
      rest.map (fun f =>
        diff_count (dget (rootItems base.data) k) (dget (rootItems f.data) k)))

/-- C6: with two or more loaded files, the heatmap has one row per key in
the union of all loaded files' top-level keys (no key twice), rows in
alphabetical order, one column per file after the first in load order,
and the cell for key k and file f is diff_count of the base file's value
at k and f's value at k, an absent key being passed as None. -/
theorem heatmap_spec (base f2 : LoadedFile) (rest : List LoadedFile) :
    List.Pairwise (· ≤ ·) (heatmap_keys (base :: f2 :: rest))
    ∧ (heatmap_keys (base :: f2 :: rest)).Nodup
    ∧ (∀ k, k ∈ heatmap_keys (base :: f2 :: rest) ↔
        ∃ f ∈ base :: f2 :: rest, k ∈ (rootItems f.data).map Prod.fst)
    ∧ heatmap_matrix (base :: f2 :: rest) =
        (heatmap_keys (base :: f2 :: rest)).map (fun k =>
          (f2 :: rest).map (fun f =>
            diff_count (dget (rootItems base.data) k) (dget (rootItems f.data) k))) := by
  refine ⟨List.sorted_insertionSort _ _, ?_, ?_, rfl⟩
  · exact ((List.perm_insertionSort _ _).nodup_iff).mpr (List.nodup_dedup _)
  · intro k
    simp [heatmap_keys, List.mem_insertionSort, List.mem_dedup, List.mem_flatMap]

/-- The application state touched by load_files and update_view: the
loaded-file list, the notebook tab labels, and the search state.  The
navigation tree and rendered panels are modelled separately by the path
and widget functions below; they are likewise cleared at the start of a
load. -/
structure AppState where
  files : List LoadedFile
  tabs : List String
  searchResults : List (String × String)
  searchQuery : String

/-- os.path.basename for forward-slash paths: the suffix after the last
slash. -/
def basename (p : String) : String :=
  String.mk ((p.data.reverse.takeWhile (fun c => c != '/')).reverse)

/-- The data of a successful read, used to state the load theorem. -/
def okD : Except String PyVal → PyVal
  | .ok d => d
  | .error _ => PyVal.none

/-- The read-and-parse loop of load_files: walk the selected paths in
order, appending each successfully parsed file to the file list; on the
first failure stop and report the error message naming the path and the
cause, leaving the list at the files read so far. -/
def loadLoop (fs : String → Except String PyVal) :
    List String → List LoadedFile → List LoadedFile × Option String
  | [], acc => (acc, Option.none)
  | p :: rest, acc =>
    match fs p with
    | .ok d => loadLoop fs rest (acc ++ [⟨basename p, d⟩])
    | .error e => (acc, some ("Failed to load " ++ p ++ ": " ++ e))

/-- update_view: clear tabs and search state, then display the first
file's sections as tabs, plus a comparison tab when at least two files
are loaded. -/
def update_view (st : AppState) : AppState :=
  match st.files with
  | [] => { st with tabs := [], searchResults := [], searchQuery := "" }
  | [f] =>
    { st with tabs := (rootItems f.data).map Prod.fst,
              searchResults := [], searchQuery := "" }
  | f :: g :: _ =>
    { st with tabs := ((rootItems f.data).map Prod.fst) ++ ["Compare: " ++ g.name],
              searchResults := [], searchQuery := "" }

/-- load_files from json_visualizer.py: an empty selection returns
immediately; otherwise the file list, tabs, tree and search state are
cleared up front, then each selected path is read and parsed in order,
appending to the file list; on the first failure an error naming the
path and cause is reported and the method returns without rebuilding the
view; on success the view is rebuilt from the new list. -/
def load_files (fs : String → Except String PyVal) (paths : List String)
    (st : AppState) : AppState × Option String :=
  if paths.isEmpty then (st, Option.none)
  else
    let st1 : AppState := { files := [], tabs := [], searchResults := [], searchQuery := "" }
    match loadLoop fs paths [] with
    | (fl, some msg) => ({ st1 with files := fl }, some msg)
    | (fl, Option.none) => (update_view { st1 with files := fl }, Option.none)

theorem loadLoop_append_error (fs : String → Except String PyVal)
    (ps2 : List String) (p e : String) (herr : fs p = Except.error e) :
    ∀ (ps1 : List String) (acc : List LoadedFile),
    (∀ q ∈ ps1, ∃ d, fs q = Except.ok d) →
    loadLoop fs (ps1 ++ p :: ps2) acc =
      (acc ++ ps1.map (fun q => ⟨basename q, okD (fs q)⟩),
        some ("Failed to load " ++ p ++ ": " ++ e)) := by
  intro ps1
  induction ps1 with
  | nil =>
    intro acc _
    simp [loadLoop, herr]
  | cons q qs ih =>
    intro acc hok
    obtain ⟨d, hd⟩ := hok q (List.mem_cons_self _ _)
    have hqd : okD (fs q) = d := by rw [hd]; rfl
    have hrec := ih (acc ++ [⟨basename q, d⟩]) (fun r hr => hok r (List.mem_cons_of_mem _ hr))
    simp only [List.cons_append, loadLoop, hd, List.append_eq]
    rw [hrec]
    simp [hqd, List.append_assoc]

/-- Example filesystem for the load scenario: one good file and
everything else missing. -/
def fsEx : String → Except String PyVal := fun p =>
  if p = "good.json" then Except.ok (PyVal.dict [("a", PyVal.int 1)])
  else Except.error "No such file or directory"

/-- Example prior state with one previously loaded file. -/
def stEx : AppState :=
  { files := [⟨"old.json", PyVal.dict []⟩], tabs := ["a"],
    searchResults := [], searchQuery := "" }

/-- Counterexample to C5 as stated: with a prior loaded file and a batch
of two paths whose second is missing, load_files reports the failure but
the loaded-file list is mutated: it no longer equals the prior list (the
prior list is cleared and the successfully read prefix of the batch is
left committed). -/
theorem load_files_not_atomic_counterexample :
    (load_files fsEx ["good.json", "missing.json"] stEx).1.files ≠ stEx.files
    ∧ (load_files fsEx ["good.json", "missing.json"] stEx).2 =
        some "Failed to load missing.json: No such file or directory" := by
  constructor
  · intro h
    have h2 := congrArg (fun l => l.map LoadedFile.name) h
    simp [load_files, loadLoop, fsEx, stEx] at h2
    exact absurd h2 (by decide)
  · rfl

/-- C5 (amended): if any file of a non-empty batch fails to read or
parse, load_files aborts at the first failing path, reports an error
naming that path and the cause, and does not rebuild the view (tabs and
search state stay cleared); the loaded-file list, however, is not
preserved: it is cleared at the start of the load and is left holding
exactly the files of the batch read before the failure. -/
theorem load_files_failure_spec (fs : String → Except String PyVal)
    (st : AppState) (ps1 ps2 : List String) (p e : String)
    (hok : ∀ q ∈ ps1, ∃ d, fs q = Except.ok d)
    (herr : fs p = Except.error e) :
    load_files fs (ps1 ++ p :: ps2) st =
      ({ files := ps1.map (fun q => ⟨basename q, okD (fs q)⟩),
         tabs := [], searchResults := [], searchQuery := "" },
        some ("Failed to load " ++ p ++ ": " ++ e)) := by
  have hne : (ps1 ++ p :: ps2).isEmpty = false := by
    cases ps1 <;> simp
  rw [load_files, hne]
  simp only [Bool.false_eq_true, if_false]
  rw [loadLoop_append_error fs ps2 p e herr ps1 [] hok]
  simp

/-- Witness for C5 (amended): concrete run of the failing batch. -/
theorem load_files_failure_spec_witness :
    load_files fsEx ["good.json", "missing.json"] stEx =
      ({ files := [⟨"good.json", PyVal.dict [("a", PyVal.int 1)]⟩],
         tabs := [], searchResults := [], searchQuery := "" },
        some "Failed to load missing.json: No such file or directory") := by
  have h := load_files_failure_spec fsEx stEx ["good.json"] [] "missing.json"
    "No such file or directory"
    (by
      intro q hq
      simp only [List.mem_singleton] at hq
      subst hq
      exact ⟨PyVal.dict [("a", PyVal.int 1)], rfl⟩)
    rfl
  exact h

/-- Python str.lower(): lowercase each character. -/
def pyLower (s : String) : String := String.mk (s.data.map Char.toLower)

/-- Python str.strip(): remove whitespace from both ends. -/
def pyStrip (s : String) : String :=
  String.mk (((s.data.dropWhile Char.isWhitespace).reverse.dropWhile
    Char.isWhitespace).reverse)

/-- Python substring test: needle in hay. -/
def strContainsB (hay needle : String) : Bool :=
  hay.data.tails.any (fun t => needle.data.isPrefixOf t)

/-- Decimal representation of a natural number, as interpolated by the
renderer's f-strings. -/
def natStr (n : Nat) : String := (Nat.toDigits 10 n).asString

/-- Python str() of an int. -/
def intStr (n : Int) : String :=
  if n < 0 then "-" ++ natStr n.natAbs else natStr n.natAbs

/-- Python str() of a float: exact for floats of integral value
(str(1.0) is "1.0"); a non-integral float is rendered num/den here, a
simplification of Python shortest-round-trip float formatting, which is
out of scope. -/
def floatStr (q : Rat) : String :=
  if q.den = 1 then intStr q.num ++ ".0" else intStr q.num ++ "/" ++ natStr q.den

/-- Python str() of a scalar, as shown in the renderer's entry fields.
build_nested_frame applies str only to non-container values, so the
container cases below are never reached by the renderer. -/
def pyStr : PyVal → String
  | .none => "None"
  | .bool b => if b then "True" else "False"
  | .int n => intStr n
  | .float q => floatStr q
  | .str s => s
  | .list _ => ""
  | .dict _ => ""

/-- Path of an object child: parent path plus ".key", or the bare key at
an empty prefix, as in build_tree_nodes and build_nested_frame. -/
def joinKey (pre k : String) : String := if pre = "" then k else pre ++ "." ++ k

/-- Path of an array element: parent path plus "[index]". -/
def idxSeg (pre : String) (i : Nat) : String := pre ++ "[" ++ natStr i ++ "]"

/-- The background captured as default_bg when an entry is created. -/
def defaultBg : String := "default"

/-- The group title of a rendered array: "key [List]", or "List" at the
unnamed root. -/
def listTitle (kn : Option String) : String :=
  match kn with
  | some k => k ++ " [List]"
  | Option.none => "List"

/-- The widget tree built by build_nested_frame: groups for objects and
arrays, label rows for other widgets, and editable entries for scalars;
an entry records its full_path, its displayed text and its background. -/
inductive Widget : Type where
  | entryW (path : String) (text : String) (bg : String) : Widget
  | labelW (text : String) : Widget
  | frameW (title : String) (children : List Widget) : Widget

mutual
/-- build_nested_frame from json_visualizer.py, as the widget tree it
creates: an object becomes a titled group (its key name, or "Object" at
the unnamed root) holding one rendered child per key in order; an array
becomes a group titled "key [List]" holding one child per element,
labelled "[index]"; a scalar becomes a row holding a label "key:" and an
entry prefilled with str(value) whose full_path is the node's path and
whose background starts at the default. -/
def build_nested_frame (d : PyVal) (keyName : Option String) (pre : String) : Widget :=
  match d with
  | .dict kvs => .frameW (keyName.getD "Object") (buildKVs kvs pre)
  | .list xs => .frameW (listTitle keyName) (buildElems xs pre 0)
  | v =>
    .frameW "" [.labelW ((keyName.getD (pyStr v)) ++ ":"),
                .entryW pre (pyStr v) defaultBg]
termination_by sizeOf d

def buildKVs (kvs : List (String × PyVal)) (pre : String) : List Widget :=
  match kvs with
  | [] => []
  | (k, v) :: rest =>
    build_nested_frame v (some k) (joinKey pre k) :: buildKVs rest pre
termination_by sizeOf kvs

def buildElems (xs : List PyVal) (pre : String) (i : Nat) : List Widget :=
  match xs with
  | [] => []
  | v :: rest =>
    build_nested_frame v (some ("[" ++ natStr i ++ "]")) (idxSeg pre i) ::
      buildElems rest pre (i + 1)
termination_by sizeOf xs
end

mutual
/-- The flat list of rendered scalar fields of one section, in traversal
order: the path (full_path) and displayed text of every entry the
renderer creates. -/
def panelEntries (d : PyVal) (pre : String) : List (String × String) :=
  match d with
  | .dict kvs => peKVs kvs pre
  | .list xs => peElems xs pre 0
  | v => [(pre, pyStr v)]
termination_by sizeOf d

def peKVs (kvs : List (String × PyVal)) (pre : String) : List (String × String) :=
  match kvs with
  | [] => []
  | (k, v) :: rest => panelEntries v (joinKey pre k) ++ peKVs rest pre
termination_by sizeOf kvs

def peElems (xs : List PyVal) (pre : String) (i : Nat) : List (String × String) :=
  match xs with
  | [] => []
  | v :: rest => panelEntries v (idxSeg pre i) ++ peElems rest pre (i + 1)
termination_by sizeOf xs
end

mutual
/-- search_in_widget from json_visualizer.py: an entry whose lowercased
displayed text or lowercased path contains the query is highlighted
yellow and its path collected; frames are searched recursively; other
widgets are ignored.  Returns the updated widget and, in traversal
order, the matched paths. -/
def search_in_widget (q : String) (w : Widget) : Widget × List String :=
  match w with
  | .entryW path text bg =>
    if strContainsB (pyLower text) q || strContainsB (pyLower path) q then
      (.entryW path text "yellow", [path])
    else (.entryW path text bg, [])
  | .labelW t => (.labelW t, [])
  | .frameW t cs =>
    let r := searchChildren q cs
    (.frameW t r.1, r.2)
termination_by sizeOf w

def searchChildren (q : String) (cs : List Widget) : List Widget × List String :=
  match cs with
  | [] => ([], [])
  | c :: rest =>
    let r1 := search_in_widget q c
    let r2 := searchChildren q rest
    (r1.1 :: r2.1, r1.2 ++ r2.2)
termination_by sizeOf cs
end

mutual
/-- The reset loop of perform_search: every entry's background is put
back to its default before a new query is processed. -/
def resetW : Widget → Widget
  | .entryW path text _ => .entryW path text defaultBg
  | .labelW t => .labelW t
  | .frameW t cs => .frameW t (resetChildren cs)
termination_by w => sizeOf w

def resetChildren : List Widget → List Widget
  | [] => []
  | c :: rest => resetW c :: resetChildren rest
termination_by cs => sizeOf cs
end

mutual
/-- Every entry of the widget shows the default background. -/
def allDefaultBgW : Widget → Bool
  | .entryW _ _ bg => bg == defaultBg
  | .labelW _ => true
  | .frameW _ cs => allDefaultBgChildren cs
termination_by w => sizeOf w

def allDefaultBgChildren : List Widget → Bool
  | [] => true
  | c :: rest => allDefaultBgW c && allDefaultBgChildren rest
termination_by cs => sizeOf cs
end

/-- A rendered entry matches a (stripped, lowercased) query when its
lowercased displayed text or lowercased path contains it. -/
def entryMatches (q : String) (e : String × String) : Bool :=
  strContainsB (pyLower e.2) q || strContainsB (pyLower e.1) q

/-- perform_search from json_visualizer.py, over the realized tabs (tab
key and rendered widget tree, in realization order): reset every entry's
background; strip and lowercase the query; an empty query yields no
results; otherwise walk every realized tab's widgets collecting and
highlighting matches, producing (tab, path) pairs in traversal order. -/
def perform_search (tabs : List (String × Widget)) (raw : String) :
    List (String × Widget) × List (String × String) :=
  let query := pyLower (pyStrip raw)
  let tabs0 := tabs.map (fun t => (t.1, resetW t.2))
  if query = "" then (tabs0, [])
  else
    (tabs0.map (fun t => (t.1, (search_in_widget query t.2).1)),
      tabs0.flatMap (fun t => ((search_in_widget query t.2).2).map (fun p => (t.1, p))))

/-- All rendered scalar fields of the realized sections, in traversal
order, as (section, path, displayed text). -/
def allEntriesOf (secs : List (String × PyVal)) : List (String × String × String) :=
  secs.flatMap (fun s => (panelEntries s.2 s.1).map (fun e => (s.1, e.1, e.2)))

theorem resetW_build_master : ∀ (n : Nat),
    (∀ (d : PyVal) (kn : Option String) (pre : String), sizeOf d ≤ n →
      resetW (build_nested_frame d kn pre) = build_nested_frame d kn pre)
    ∧ (∀ (kvs : List (String × PyVal)) (pre : String), sizeOf kvs ≤ n →
      resetChildren (buildKVs kvs pre) = buildKVs kvs pre)
    ∧ (∀ (xs : List PyVal) (pre : String) (i : Nat), sizeOf xs ≤ n →
      resetChildren (buildElems xs pre i) = buildElems xs pre i) := by
  intro n
  induction n using Nat.strong_induction_on with
  | _ n ih =>
    refine ⟨?_, ?_, ?_⟩
    · intro d kn pre hle
      cases d with
      | dict kvs =>
        have h1 : sizeOf kvs < n := by simp at hle; omega
        have hk := (ih _ h1).2.1 kvs pre (le_refl _)
        simp only [build_nested_frame, resetW, hk]
      | list xs =>
        have h1 : sizeOf xs < n := by simp at hle; omega
        have hk := (ih _ h1).2.2 xs pre 0 (le_refl _)
        simp only [build_nested_frame, resetW, hk]
      | none => rw [build_nested_frame.eq_def]; simp [resetW, resetChildren]
      | bool b => rw [build_nested_frame.eq_def]; simp [resetW, resetChildren]
      | int m => rw [build_nested_frame.eq_def]; simp [resetW, resetChildren]
      | float q => rw [build_nested_frame.eq_def]; simp [resetW, resetChildren]
      | str s => rw [build_nested_frame.eq_def]; simp [resetW, resetChildren]
    · intro kvs pre hle
      cases kvs with
      | nil => simp [buildKVs, resetChildren]
      | cons hd rest =>
        obtain ⟨k, v⟩ := hd
        have hv : sizeOf v < n := by simp at hle; omega
        have hr : sizeOf rest < n := by simp at hle; omega
        have h1 := (ih _ hv).1 v (some k) (joinKey pre k) (le_refl _)
        have h2 := (ih _ hr).2.1 rest pre (le_refl _)
        simp only [buildKVs, resetChildren, h1, h2]
    · intro xs pre i hle
      cases xs with
      | nil => simp [buildElems, resetChildren]
      | cons v rest =>
        have hv : sizeOf v < n := by simp at hle; omega
        have hr : sizeOf rest < n := by simp at hle; omega
        have h1 := (ih _ hv).1 v (some ("[" ++ natStr i ++ "]")) (idxSeg pre i) (le_refl _)
        have h2 := (ih _ hr).2.2 rest pre (i + 1) (le_refl _)
        simp only [buildElems, resetChildren, h1, h2]

theorem resetW_build (d : PyVal) (kn : Option String) (pre : String) :
    resetW (build_nested_frame d kn pre) = build_nested_frame d kn pre :=
  (resetW_build_master (sizeOf d)).1 d kn pre (le_refl _)

theorem search_in_build_master (q : String) : ∀ (n : Nat),
    (∀ (d : PyVal) (kn : Option String) (pre : String), sizeOf d ≤ n →
      (search_in_widget q (build_nested_frame d kn pre)).2 =
        ((panelEntries d pre).filter (entryMatches q)).map Prod.fst)
    ∧ (∀ (kvs : List (String × PyVal)) (pre : String), sizeOf kvs ≤ n →
      (searchChildren q (buildKVs kvs pre)).2 =
        ((peKVs kvs pre).filter (entryMatches q)).map Prod.fst)
    ∧ (∀ (xs : List PyVal) (pre : String) (i : Nat), sizeOf xs ≤ n →
      (searchChildren q (buildElems xs pre i)).2 =
        ((peElems xs pre i).filter (entryMatches q)).map Prod.fst) := by
  intro n
  induction n using Nat.strong_induction_on with
  | _ n ih =>
    refine ⟨?_, ?_, ?_⟩
    · intro d kn pre hle
      cases d with
      | dict kvs =>
        have h1 : sizeOf kvs < n := by simp at hle; omega
        have hk := (ih _ h1).2.1 kvs pre (le_refl _)
        simp only [build_nested_frame, panelEntries, search_in_widget, hk]
      | list xs =>
        have h1 : sizeOf xs < n := by simp at hle; omega
        have hk := (ih _ h1).2.2 xs pre 0 (le_refl _)
        simp only [build_nested_frame, panelEntries, search_in_widget, hk]
      | none =>
        rw [build_nested_frame.eq_def, panelEntries.eq_def]
        by_cases hc : (strContainsB (pyLower (pyStr PyVal.none)) q ||
            strContainsB (pyLower pre) q) = true <;>
          simp [search_in_widget, searchChildren, entryMatches, hc]
      | bool b =>
        rw [build_nested_frame.eq_def, panelEntries.eq_def]
        by_cases hc : (strContainsB (pyLower (pyStr (PyVal.bool b))) q ||
            strContainsB (pyLower pre) q) = true <;>
          simp [search_in_widget, searchChildren, entryMatches, hc]
      | int m =>
        rw [build_nested_frame.eq_def, panelEntries.eq_def]
        by_cases hc : (strContainsB (pyLower (pyStr (PyVal.int m))) q ||
            strContainsB (pyLower pre) q) = true <;>
          simp [search_in_widget, searchChildren, entryMatches, hc]
      | float qq =>
        rw [build_nested_frame.eq_def, panelEntries.eq_def]
        by_cases hc : (strContainsB (pyLower (pyStr (PyVal.float qq))) q ||
            strContainsB (pyLower pre) q) = true <;>
          simp [search_in_widget, searchChildren, entryMatches, hc]
      | str s =>
        rw [build_nested_frame.eq_def, panelEntries.eq_def]
        by_cases hc : (strContainsB (pyLower (pyStr (PyVal.str s))) q ||
            strContainsB (pyLower pre) q) = true <;>
          simp [search_in_widget, searchChildren, entryMatches, hc]
    · intro kvs pre hle
      cases kvs with
      | nil => simp [buildKVs, searchChildren, peKVs]
      | cons hd rest =>
        obtain ⟨k, v⟩ := hd
        have hv : sizeOf v < n := by simp at hle; omega
        have hr : sizeOf rest < n := by simp at hle; omega
        have h1 := (ih _ hv).1 v (some k) (joinKey pre k) (le_refl _)
        have h2 := (ih _ hr).2.1 rest pre (le_refl _)
        simp only [buildKVs, searchChildren, peKVs, List.filter_append,
          List.map_append, h1, h2]
    · intro xs pre i hle
      cases xs with
      | nil => simp [buildElems, searchChildren, peElems]
      | cons v rest =>
        have hv : sizeOf v < n := by simp at hle; omega
        have hr : sizeOf rest < n := by simp at hle; omega
        have h1 := (ih _ hv).1 v (some ("[" ++ natStr i ++ "]")) (idxSeg pre i) (le_refl _)
        have h2 := (ih _ hr).2.2 rest pre (i + 1) (le_refl _)
        simp only [buildElems, searchChildren, peElems, List.filter_append,
          List.map_append, h1, h2]

theorem search_in_widget_build (q : String) (d : PyVal) (kn : Option String)
    (pre : String) :
    (search_in_widget q (build_nested_frame d kn pre)).2 =
      ((panelEntries d pre).filter (entryMatches q)).map Prod.fst :=
  (search_in_build_master q (sizeOf d)).1 d kn pre (le_refl _)

theorem allDefaultBg_reset_master : ∀ (n : Nat),
    (∀ w : Widget, sizeOf w ≤ n → allDefaultBgW (resetW w) = true)
    ∧ (∀ cs : List Widget, sizeOf cs ≤ n →
        allDefaultBgChildren (resetChildren cs) = true) := by
  intro n
  induction n using Nat.strong_induction_on with
  | _ n ih =>
    constructor
    · intro w hle
      cases w with
      | entryW path text bg => simp [resetW, allDefaultBgW]
      | labelW t => simp [resetW, allDefaultBgW]
      | frameW t cs =>
        have h1 : sizeOf cs < n := by simp at hle; omega
        have hk := (ih _ h1).2 cs (le_refl _)
        simp [resetW, allDefaultBgW, hk]
    · intro cs hle
      cases cs with
      | nil => simp [resetChildren, allDefaultBgChildren]
      | cons c rest =>
        have hc : sizeOf c < n := by simp at hle; omega
        have hr : sizeOf rest < n := by simp at hle; omega
        simp [resetChildren, allDefaultBgChildren, (ih _ hc).1 c (le_refl _),
          (ih _ hr).2 rest (le_refl _)]

theorem allDefaultBg_reset (w : Widget) : allDefaultBgW (resetW w) = true :=
  (allDefaultBg_reset_master (sizeOf w)).1 w (le_refl _)

theorem strContainsB_iff (hay needle : String) :
    strContainsB hay needle = true ↔ ∃ l r, l ++ needle.data ++ r = hay.data := by
  unfold strContainsB
  rw [List.any_eq_true]
  constructor
  · rintro ⟨t, ht, hp⟩
    have hsuf : t <:+ hay.data := (List.mem_tails _ _).1 ht
    have hpre : needle.data <+: t := List.isPrefixOf_iff_prefix.1 hp
    exact List.infix_iff_prefix_suffix.mpr ⟨t, hpre, hsuf⟩
  · rintro ⟨l, r, hlr⟩
    obtain ⟨t, hpre, hsuf⟩ := List.infix_iff_prefix_suffix.mp ⟨l, r, hlr⟩
    exact ⟨t, (List.mem_tails _ _).2 hsuf, List.isPrefixOf_iff_prefix.2 hpre⟩

theorem map_fst_filter_pair (sec : String) (q : String) :
    ∀ L : List (String × String),
    (List.map Prod.fst (List.filter (entryMatches q) L)).map (fun p => (sec, p)) =
      ((L.map (fun e => (sec, e.1, e.2))).filter (fun e =>
        strContainsB (pyLower e.2.2) q || strContainsB (pyLower e.2.1) q)).map
        (fun e => (e.1, e.2.1)) := by
  intro L
  induction L with
  | nil => rfl
  | cons e rest ih =>
    by_cases hc : entryMatches q e = true
    · have hc2 : (strContainsB (pyLower e.2) q || strContainsB (pyLower e.1) q) = true := hc
      simp [List.filter_cons, entryMatches, hc2, ih]
    · have hc2 : (strContainsB (pyLower e.2) q || strContainsB (pyLower e.1) q) = false := by
        simpa [entryMatches] using hc
      simp [List.filter_cons, entryMatches, hc2, ih]

theorem perform_search_results (secs : List (String × PyVal)) (raw : String)
    (hq : ¬pyLower (pyStrip raw) = "") :
    (perform_search
        (secs.map (fun s => (s.1, build_nested_frame s.2 Option.none s.1))) raw).2 =
      ((allEntriesOf secs).filter (fun e =>
        strContainsB (pyLower e.2.2) (pyLower (pyStrip raw)) ||
          strContainsB (pyLower e.2.1) (pyLower (pyStrip raw)))).map
        (fun e => (e.1, e.2.1)) := by
  simp only [perform_search, if_neg hq, List.map_map]
  induction secs with
  | nil => rfl
  | cons s rest ih =>
    simp only [allEntriesOf, List.flatMap_cons, List.map_cons, Function.comp,
      List.filter_append, List.map_append] at *
    rw [ih, resetW_build, search_in_widget_build, map_fst_filter_pair]

/-- secsEx: one realized section holding one scalar whose text contains a
space. -/
def secsEx : List (String × PyVal) := [("s", PyVal.dict [("k", PyVal.str "a b")])]

/-- Counterexample to C8 as stated: with the raw query " " (non-empty),
the rendered scalar at path s.k displays "a b", whose text contains the
query, so the claim predicts exactly one result; perform_search strips
the query to the empty string first and returns no results. -/
theorem perform_search_counterexample :
    (perform_search
        (secsEx.map (fun s => (s.1, build_nested_frame s.2 Option.none s.1))) " ").2 = []
    ∧ ((allEntriesOf secsEx).filter (fun e =>
        strContainsB (pyLower e.2.2) (pyLower " ") ||
          strContainsB (pyLower e.2.1) (pyLower " "))).map
        (fun e => (e.1, e.2.1)) = [("s", "s.k")] := by
  constructor
  · have hq : pyLower (pyStrip " ") = "" := by decide
    simp [perform_search, hq]
  · simp only [secsEx, allEntriesOf, List.flatMap_cons, List.flatMap_nil]
    rw [panelEntries.eq_def]
    simp only []
    rw [peKVs.eq_def]
    simp only []
    rw [peKVs.eq_def]
    rw [panelEntries.eq_def]
    simp only [List.append_nil]
    decide

/-- C8 (amended): perform_search first strips surrounding whitespace
from the query and lowercases it; if the stripped query is empty there
are no results; otherwise the results are exactly the rendered scalar
fields of the realized sections whose lowercased displayed text or
lowercased path contains the stripped lowercased query as a substring
(substring in the usual sense: some decomposition l ++ query ++ r), as
(section, path) pairs in traversal order; in particular, if the stripped
query occurs in exactly one rendered scalar's text and in no path, the
search returns exactly that scalar's (section, path). -/
theorem perform_search_spec (secs : List (String × PyVal)) (raw : String)
    (hq : ¬pyLower (pyStrip raw) = "") :
    ((perform_search
        (secs.map (fun s => (s.1, build_nested_frame s.2 Option.none s.1))) raw).2 =
      ((allEntriesOf secs).filter (fun e =>
        strContainsB (pyLower e.2.2) (pyLower (pyStrip raw)) ||
          strContainsB (pyLower e.2.1) (pyLower (pyStrip raw)))).map
        (fun e => (e.1, e.2.1)))
    ∧ (∀ hay needle : String, strContainsB hay needle = true ↔
        ∃ l r, l ++ needle.data ++ r = hay.data)
    ∧ (∀ tab path text,
        (allEntriesOf secs).filter (fun e =>
          strContainsB (pyLower e.2.2) (pyLower (pyStrip raw))) = [(tab, path, text)] →
        (∀ e ∈ allEntriesOf secs,
          strContainsB (pyLower e.2.1) (pyLower (pyStrip raw)) = false) →
        (perform_search
          (secs.map (fun s => (s.1, build_nested_frame s.2 Option.none s.1))) raw).2 =
          [(tab, path)]) := by
  refine ⟨perform_search_results secs raw hq, strContainsB_iff, ?_⟩
  intro tab path text hval hpath
  rw [perform_search_results secs raw hq]
  have hfe : (allEntriesOf secs).filter (fun e =>
      strContainsB (pyLower e.2.2) (pyLower (pyStrip raw)) ||
        strContainsB (pyLower e.2.1) (pyLower (pyStrip raw))) =
      (allEntriesOf secs).filter (fun e =>
        strContainsB (pyLower e.2.2) (pyLower (pyStrip raw))) := by
    apply List.filter_congr
    intro e he
    rw [hpath e he, Bool.or_false]
  rw [hfe, hval]
  rfl

/-- Witness for C8 (amended): searching the one-section document for the
(unique) substring "a b" of its single entry returns exactly that
entry's section and path. -/
theorem perform_search_spec_witness :
    (perform_search
        (secsEx.map (fun s => (s.1, build_nested_frame s.2 Option.none s.1))) "A B").2 =
      [("s", "s.k")] := by
  apply (perform_search_spec secsEx "A B" (by decide)).2.2 "s" "s.k" "a b"
  · simp only [secsEx, allEntriesOf, List.flatMap_cons, List.flatMap_nil]
    rw [panelEntries.eq_def]
    simp only []
    rw [peKVs.eq_def]
    simp only []
    rw [peKVs.eq_def]
    rw [panelEntries.eq_def]
    simp only [List.append_nil]
    decide
  · intro e he
    simp only [secsEx, allEntriesOf, List.flatMap_cons, List.flatMap_nil] at he
    rw [panelEntries.eq_def] at he
    simp only [] at he
    rw [peKVs.eq_def] at he
    simp only [] at he
    rw [peKVs.eq_def] at he
    rw [panelEntries.eq_def] at he
    simp only [List.append_nil] at he
    have he2 : e = ("s", joinKey "s" "k", pyStr (PyVal.str "a b")) := by
      simpa using he
    subst he2
    decide

/-- C9: a search with the empty query produces zero results, and every
entry of every realized tab is put back to its default background: all
highlighting is cleared, whatever the previous state. -/
theorem perform_search_empty_spec (tabs : List (String × Widget)) :
    (perform_search tabs "").2 = []
    ∧ (perform_search tabs "").1 = tabs.map (fun t => (t.1, resetW t.2))
    ∧ ∀ t ∈ (perform_search tabs "").1, allDefaultBgW t.2 = true := by
  have hq : pyLower (pyStrip "") = "" := rfl
  have h1 : (perform_search tabs "").1 = tabs.map (fun t => (t.1, resetW t.2)) := by
    simp [perform_search, hq]
  refine ⟨by simp [perform_search, hq], h1, ?_⟩
  intro t ht
  rw [h1] at ht
  obtain ⟨t0, _, rfl⟩ := List.mem_map.mp ht
  exact allDefaultBg_reset t0.2

/-- Witness for C9: a previously highlighted entry is reset to the
default background by an empty-query search. -/
theorem perform_search_empty_spec_witness :
    (perform_search [("s", Widget.entryW "s.k" "a b" "yellow")] "").2 = []
    ∧ allDefaultBgW (Widget.entryW "s.k" "a b" defaultBg) = true := by
  have h := perform_search_empty_spec [("s", Widget.entryW "s.k" "a b" "yellow")]
  refine ⟨h.1, ?_⟩
  apply h.2.2 ("s", Widget.entryW "s.k" "a b" defaultBg)
  rw [h.2.1]
  simp [resetW]

/-- The digits of n in order, the reference form of Nat.toDigits 10. -/
def myDigits (n : Nat) : List Char :=
  if n < 10 then [Nat.digitChar n]
  else myDigits (n / 10) ++ [Nat.digitChar (n % 10)]
termination_by n
decreasing_by exact Nat.div_lt_self (by omega) (by omega)

theorem toDigitsCore_eq_myDigits :
    ∀ (fuel n : Nat) (acc : List Char), n < fuel →
    Nat.toDigitsCore 10 fuel n acc = myDigits n ++ acc := by
  intro fuel
  induction fuel with
  | zero => intro n acc h; omega
  | succ fuel ih =>
    intro n acc h
    rw [Nat.toDigitsCore]
    by_cases h10 : n / 10 = 0
    · have hn : n < 10 := by omega
      have hmod : n % 10 = n := Nat.mod_eq_of_lt hn
      rw [myDigits]
      simp [h10, hn, hmod]
    · have hn : ¬n < 10 := by
        intro hc
        exact h10 (Nat.div_eq_of_lt hc)
      have hlt : n / 10 < fuel := by
        have := Nat.div_lt_self (by omega : 0 < n) (by omega : 1 < 10)
        omega
      simp only [h10, if_false]
      rw [ih (n / 10) _ hlt]
      have hr : myDigits n = myDigits (n / 10) ++ [Nat.digitChar (n % 10)] := by
        rw [myDigits]
        simp [hn]
      rw [hr]
      simp [List.append_assoc]

theorem natStr_data (n : Nat) : (natStr n).data = myDigits n := by
  show (Nat.toDigits 10 n).asString.data = myDigits n
  rw [Nat.toDigits, toDigitsCore_eq_myDigits (n + 1) n [] (Nat.lt_succ_self n)]
  simp [List.asString]

theorem digitChar_isDigit (m : Nat) (h : m < 10) :
    (Nat.digitChar m).isDigit = true := by
  interval_cases m <;> decide

theorem myDigits_isDigit : ∀ (n : Nat), ∀ c ∈ myDigits n, c.isDigit = true := by
  intro n
  induction n using Nat.strong_induction_on with
  | _ n ih =>
    intro c hc
    rw [myDigits] at hc
    by_cases h10 : n < 10
    · simp [h10] at hc
      subst hc
      exact digitChar_isDigit n h10
    · simp [h10] at hc
      rcases hc with hc | hc
      · exact ih (n / 10) (Nat.div_lt_self (by omega) (by omega)) c hc
      · subst hc
        exact digitChar_isDigit _ (Nat.mod_lt _ (by omega))

theorem digitVal_digitChar (m : Nat) (h : m < 10) :
    (Nat.digitChar m).toNat - 48 = m := by
  interval_cases m <;> decide

theorem foldl_myDigits (n : Nat) :
    (myDigits n).foldl (fun a c => 10 * a + (c.toNat - 48)) 0 = n := by
  induction n using Nat.strong_induction_on with
  | _ n ih =>
    rw [myDigits]
    by_cases h10 : n < 10
    · simp [h10, digitVal_digitChar n h10]
    · simp only [h10, if_false]
      rw [List.foldl_append]
      rw [ih (n / 10) (Nat.div_lt_self (by omega) (by omega))]
      simp [digitVal_digitChar _ (Nat.mod_lt _ (by omega : (0:Nat) < 10))]
      omega

theorem myDigits_inj {m n : Nat} (h : myDigits m = myDigits n) : m = n := by
  have hm := foldl_myDigits m
  rw [h, foldl_myDigits n] at hm
  omega

theorem natStr_inj {m n : Nat} (h : natStr m = natStr n) : m = n :=
  myDigits_inj (by rw [← natStr_data, ← natStr_data, h])

theorem isDigit_ne_sep {c : Char} (h : c.isDigit = true) :
    c ≠ '.' ∧ c ≠ '[' ∧ c ≠ ']' := by
  refine ⟨?_, ?_, ?_⟩ <;> (intro he; subst he; exact absurd h (by decide))

/-- The key property imposed on the amended path-uniqueness claim: the
key is built only of characters other than the two path separators. -/
def goodKeyB (k : String) : Bool :=
  decide (('.' : Char) ∉ k.data) && decide (('[' : Char) ∉ k.data)

mutual
/-- All dict keys below the value are good and pairwise distinct at each
level (Python dicts always have distinct keys). -/
def goodB : PyVal → Bool
  | .dict kvs => goodKVsB kvs
  | .list xs => goodListB xs
  | .none => true
  | .bool _ => true
  | .int _ => true
  | .float _ => true
  | .str _ => true
termination_by v => sizeOf v

/-- Well-formed, good-keyed dict items: each key is good, occurs once,
and its value is good. -/
def goodKVsB : List (String × PyVal) → Bool
  | [] => true
  | (k, v) :: rest =>
    goodKeyB k && (!(rest.lookup k).isSome && (goodB v && goodKVsB rest))
termination_by kvs => sizeOf kvs

/-- All elements of the list are good. -/
def goodListB : List PyVal → Bool
  | [] => true
  | v :: rest => goodB v && goodListB rest
termination_by xs => sizeOf xs
end

/-- Well-formed good root object: like goodKVsB, with top-level keys
additionally non-empty (an empty section key would make the tree builder
emit a child path equal to the child's bare key). -/
def goodRootB : List (String × PyVal) → Bool
  | [] => true
  | (k, v) :: rest =>
    (k != "") && (goodKeyB k &&
      (!(rest.lookup k).isSome && (goodB v && goodRootB rest)))

mutual
/-- The navigation-tree node paths created by build_tree_nodes below a
value: one node per object key, at path pre.key, and one per array
element, at path pre[index], recursively; a scalar creates no node of
its own. -/
def build_tree_nodes (d : PyVal) (pre : String) : List String :=
  match d with
  | .dict kvs => treeKVs kvs pre
  | .list xs => treeElems xs pre 0
  | .none => []
  | .bool _ => []
  | .int _ => []
  | .float _ => []
  | .str _ => []
termination_by sizeOf d

def treeKVs (kvs : List (String × PyVal)) (pre : String) : List String :=
  match kvs with
  | [] => []
  | (k, v) :: rest =>
    (joinKey pre k :: build_tree_nodes v (joinKey pre k)) ++ treeKVs rest pre
termination_by sizeOf kvs

def treeElems (xs : List PyVal) (pre : String) (i : Nat) : List String :=
  match xs with
  | [] => []
  | v :: rest =>
    (idxSeg pre i :: build_tree_nodes v (idxSeg pre i)) ++ treeElems rest pre (i + 1)
termination_by sizeOf xs
end

/-- All navigation-tree node paths of a loaded document: display_tabs
creates one root node per top-level key with the key itself as path, and
build_tree_nodes adds the descendants. -/
def docTreePaths (root : List (String × PyVal)) : List String :=
  root.flatMap (fun kv => kv.1 :: build_tree_nodes kv.2 kv.1)

/-- All full_path strings assigned by the panel renderer: each section
is rendered by build_nested_frame with the section key as path prefix,
contributing one path per scalar entry. -/
def docPanelPaths (root : List (String × PyVal)) : List String :=
  root.flatMap (fun kv => (panelEntries kv.2 kv.1).map Prod.fst)

theorem joinKey_data (pre k : String) (h : pre ≠ "") :
    (joinKey pre k).data = pre.data ++ '.' :: k.data := by
  unfold joinKey
  rw [if_neg h]
  simp [String.data_append]

theorem idxSeg_data (pre : String) (i : Nat) :
    (idxSeg pre i).data = pre.data ++ '[' :: ((natStr i).data ++ [']']) := by
  unfold idxSeg
  simp [String.data_append]

theorem data_eq_imp_eq {a b : String} (h : a.data = b.data) : a = b := by
  cases a
  cases b
  exact congrArg String.mk h

theorem ne_empty_iff_data {a : String} : a ≠ "" ↔ a.data ≠ [] := by
  constructor
  · intro h hd
    exact h (data_eq_imp_eq hd)
  · intro h hd
    subst hd
    exact h rfl

theorem joinKey_ne_empty (pre k : String) (h : pre ≠ "") : joinKey pre k ≠ "" := by
  rw [ne_empty_iff_data, joinKey_data pre k h]
  simp

theorem idxSeg_ne_empty (pre : String) (i : Nat) : idxSeg pre i ≠ "" := by
  rw [ne_empty_iff_data, idxSeg_data]
  simp

/-- The first character of a path's remainder after a node's own path is
a separator (or the remainder is empty at the node itself). -/
def sepTail : List Char → Prop
  | [] => True
  | c :: _ => c = '.' ∨ c = '['

/-- p lies strictly below pre in the path tree: its data extends pre's
with a separator character. -/
def strictExt (pre p : String) : Prop :=
  ∃ c r, (c = '.' ∨ c = '[') ∧ p.data = pre.data ++ c :: r

theorem strictExt_ne {pre p : String} (h : strictExt pre p) : p ≠ pre := by
  obtain ⟨c, r, _, hd⟩ := h
  intro he
  subst he
  have := congrArg List.length hd
  simp at this

theorem strictExt_sepTail {pre p : String} (h : strictExt pre p) :
    ∃ r, sepTail r ∧ r ≠ [] ∧ p.data = pre.data ++ r := by
  obtain ⟨c, r, hc, hd⟩ := h
  exact ⟨c :: r, by simpa [sepTail] using hc, by simp, hd⟩

theorem key_run_sep : ∀ (k1 k2 r1 r2 : List Char),
    ('.' : Char) ∉ k1 → ('[' : Char) ∉ k1 →
    ('.' : Char) ∉ k2 → ('[' : Char) ∉ k2 →
    sepTail r1 → sepTail r2 →
    k1 ++ r1 = k2 ++ r2 → k1 = k2 ∧ r1 = r2 := by
  intro k1
  induction k1 with
  | nil =>
    intro k2 r1 r2 _ _ h2d h2b hs1 hs2 he
    cases k2 with
    | nil => exact ⟨rfl, by simpa using he⟩
    | cons c k2t =>
      exfalso
      simp only [List.nil_append, List.cons_append] at he
      subst he
      have hs1o : c = '.' ∨ c = '[' := hs1
      rcases hs1o with h | h
      · exact h2d (h ▸ List.mem_cons_self _ _)
      · exact h2b (h ▸ List.mem_cons_self _ _)
  | cons c k1t ih =>
    intro k2 r1 r2 h1d h1b h2d h2b hs1 hs2 he
    cases k2 with
    | nil =>
      exfalso
      simp only [List.nil_append, List.cons_append] at he
      rw [← he] at hs2
      have hs2o : c = '.' ∨ c = '[' := hs2
      rcases hs2o with h | h
      · exact h1d (h ▸ List.mem_cons_self _ _)
      · exact h1b (h ▸ List.mem_cons_self _ _)
    | cons c2 k2t =>
      simp only [List.cons_append, List.cons.injEq] at he
      obtain ⟨hc, he2⟩ := he
      subst hc
      have hrec := ih k2t r1 r2
        (fun hm => h1d (List.mem_cons_of_mem _ hm))
        (fun hm => h1b (List.mem_cons_of_mem _ hm))
        (fun hm => h2d (List.mem_cons_of_mem _ hm))
        (fun hm => h2b (List.mem_cons_of_mem _ hm))
        hs1 hs2 he2
      exact ⟨by rw [hrec.1], hrec.2⟩

theorem split_at_char : ∀ (a b r s : List Char) (c : Char),
    c ∉ a → c ∉ b → a ++ c :: r = b ++ c :: s → a = b ∧ r = s := by
  intro a
  induction a with
  | nil =>
    intro b r s c _ hcb he
    cases b with
    | nil => exact ⟨rfl, by simpa using he⟩
    | cons b0 bt =>
      exfalso
      simp only [List.nil_append, List.cons_append, List.cons.injEq] at he
      exact hcb (he.1 ▸ List.mem_cons_self _ _)
  | cons a0 at1 ih =>
    intro b r s c hca hcb he
    cases b with
    | nil =>
      exfalso
      simp only [List.nil_append, List.cons_append, List.cons.injEq] at he
      exact hca (he.1.symm ▸ List.mem_cons_self _ _)
    | cons b0 bt =>
      simp only [List.cons_append, List.cons.injEq] at he
      obtain ⟨hc, he2⟩ := he
      subst hc
      have hrec := ih bt r s c
        (fun hm => hca (List.mem_cons_of_mem _ hm))
        (fun hm => hcb (List.mem_cons_of_mem _ hm)) he2
      exact ⟨by rw [hrec.1], hrec.2⟩

theorem natStr_no_sep (i : Nat) :
    (']' : Char) ∉ (natStr i).data ∧ ('.' : Char) ∉ (natStr i).data ∧
      ('[' : Char) ∉ (natStr i).data := by
  rw [natStr_data]
  refine ⟨?_, ?_, ?_⟩ <;>
    (intro hm;
     have := myDigits_isDigit i _ hm;
     exact absurd this (by decide))

theorem goodKeyB_spec {k : String} (h : goodKeyB k = true) :
    ('.' : Char) ∉ k.data ∧ ('[' : Char) ∉ k.data := by
  simpa [goodKeyB] using h

theorem lookup_isSome_of_mem {l : List (String × PyVal)} {k : String}
    {v : PyVal} (h : (k, v) ∈ l) : (l.lookup k).isSome = true := by
  induction l with
  | nil => cases h
  | cons hd tl ih =>
    obtain ⟨k1, v1⟩ := hd
    rcases List.mem_cons.mp h with h1 | h2
    · obtain ⟨rfl, rfl⟩ := Prod.mk.injEq .. ▸ h1
      simp [List.lookup]
    · by_cases hk : k == k1 <;> simp [List.lookup, hk, ih h2]

theorem tree_decomp_master : ∀ (n : Nat),
    (∀ (d : PyVal) (pre : String), sizeOf d ≤ n → pre ≠ "" →
      ∀ p ∈ build_tree_nodes d pre, strictExt pre p)
    ∧ (∀ (kvs : List (String × PyVal)) (pre : String), sizeOf kvs ≤ n → pre ≠ "" →
      ∀ p ∈ treeKVs kvs pre, ∃ k v r, (k, v) ∈ kvs ∧ sepTail r ∧
        p.data = pre.data ++ '.' :: (k.data ++ r))
    ∧ (∀ (xs : List PyVal) (pre : String) (i : Nat), sizeOf xs ≤ n → pre ≠ "" →
      ∀ p ∈ treeElems xs pre i, ∃ j r, i ≤ j ∧ j < i + xs.length ∧ sepTail r ∧
        p.data = pre.data ++ '[' :: ((natStr j).data ++ (']' :: r))) := by
  intro n
  induction n using Nat.strong_induction_on with
  | _ n ih =>
    refine ⟨?_, ?_, ?_⟩
    · intro d pre hle hpre p hp
      cases d with
      | dict kvs =>
        have h1 : sizeOf kvs < n := by simp at hle; omega
        simp only [build_tree_nodes] at hp
        obtain ⟨k, v, r, _, _, hd⟩ := (ih _ h1).2.1 kvs pre (le_refl _) hpre p hp
        exact ⟨'.', k.data ++ r, Or.inl rfl, hd⟩
      | list xs =>
        have h1 : sizeOf xs < n := by simp at hle; omega
        simp only [build_tree_nodes] at hp
        obtain ⟨j, r, _, _, _, hd⟩ := (ih _ h1).2.2 xs pre 0 (le_refl _) hpre p hp
        exact ⟨'[', (natStr j).data ++ (']' :: r), Or.inr rfl, hd⟩
      | none => simp [build_tree_nodes] at hp
      | bool b => simp [build_tree_nodes] at hp
      | int m => simp [build_tree_nodes] at hp
      | float q => simp [build_tree_nodes] at hp
      | str s => simp [build_tree_nodes] at hp
    · intro kvs pre hle hpre p hp
      cases kvs with
      | nil => simp [treeKVs] at hp
      | cons hd rest =>
        obtain ⟨k, v⟩ := hd
        have hv : sizeOf v < n := by simp at hle; omega
        have hrsz : sizeOf rest < n := by simp at hle; omega
        simp only [treeKVs, List.cons_append, List.mem_cons, List.mem_append] at hp
        rcases hp with rfl | hp | hp
        · refine ⟨k, v, [], List.mem_cons_self _ _, trivial, ?_⟩
          rw [joinKey_data pre k hpre]
          simp
        · obtain ⟨c, r, hc, hd⟩ := (ih _ hv).1 v (joinKey pre k) (le_refl _)
            (joinKey_ne_empty pre k hpre) p hp
          refine ⟨k, v, c :: r, List.mem_cons_self _ _, hc, ?_⟩
          rw [hd, joinKey_data pre k hpre]
          simp
        · obtain ⟨k2, v2, r, hm, hs, hd⟩ := (ih _ hrsz).2.1 rest pre (le_refl _) hpre p hp
          exact ⟨k2, v2, r, List.mem_cons_of_mem _ hm, hs, hd⟩
    · intro xs pre i hle hpre p hp
      cases xs with
      | nil => simp [treeElems] at hp
      | cons v rest =>
        have hv : sizeOf v < n := by simp at hle; omega
        have hrsz : sizeOf rest < n := by simp at hle; omega
        simp only [treeElems, List.cons_append, List.mem_cons, List.mem_append] at hp
        rcases hp with rfl | hp | hp
        · refine ⟨i, [], le_refl _, by simp, trivial, ?_⟩
          rw [idxSeg_data]
        · obtain ⟨c, r, hc, hd⟩ := (ih _ hv).1 v (idxSeg pre i) (le_refl _)
            (idxSeg_ne_empty pre i) p hp
          refine ⟨i, c :: r, le_refl _, by simp, hc, ?_⟩
          rw [hd, idxSeg_data]
          simp
        · obtain ⟨j, r, hij, hjlt, hs, hd⟩ :=
            (ih _ hrsz).2.2 rest pre (i + 1) (le_refl _) hpre p hp
          refine ⟨j, r, by omega, by simp at hjlt ⊢; omega, hs, hd⟩

theorem build_tree_nodes_strictExt (d : PyVal) (pre : String) (hpre : pre ≠ "") :
    ∀ p ∈ build_tree_nodes d pre, strictExt pre p :=
  (tree_decomp_master (sizeOf d)).1 d pre (le_refl _) hpre

theorem treeKVs_decomp (kvs : List (String × PyVal)) (pre : String)
    (hpre : pre ≠ "") : ∀ p ∈ treeKVs kvs pre,
    ∃ k v r, (k, v) ∈ kvs ∧ sepTail r ∧
      p.data = pre.data ++ '.' :: (k.data ++ r) :=
  (tree_decomp_master (sizeOf kvs)).2.1 kvs pre (le_refl _) hpre

theorem treeElems_decomp (xs : List PyVal) (pre : String) (i : Nat)
    (hpre : pre ≠ "") : ∀ p ∈ treeElems xs pre i,
    ∃ j r, i ≤ j ∧ j < i + xs.length ∧ sepTail r ∧
      p.data = pre.data ++ '[' :: ((natStr j).data ++ (']' :: r)) :=
  (tree_decomp_master (sizeOf xs)).2.2 xs pre i (le_refl _) hpre

theorem goodKVsB_mem {l : List (String × PyVal)} {k : String} {v : PyVal}
    (hg : goodKVsB l = true) (hm : (k, v) ∈ l) : goodKeyB k = true := by
  induction l with
  | nil => cases hm
  | cons hd tl ih =>
    obtain ⟨k1, v1⟩ := hd
    simp only [goodKVsB, Bool.and_eq_true] at hg
    rcases List.mem_cons.mp hm with h1 | h2
    · obtain ⟨rfl, rfl⟩ := Prod.mk.injEq .. ▸ h1
      exact hg.1
    · exact ih hg.2.2.2 h2

theorem append_cancel_chars {x a b : List Char} (h : x ++ a = x ++ b) : a = b := by
  simpa using h

theorem tree_block_decomp {v : PyVal} {pre k p : String} (hpre : pre ≠ "")
    (hp : p = joinKey pre k ∨ p ∈ build_tree_nodes v (joinKey pre k)) :
    ∃ r, sepTail r ∧ p.data = pre.data ++ '.' :: (k.data ++ r) := by
  rcases hp with rfl | hp
  · exact ⟨[], trivial, by rw [joinKey_data pre k hpre]; simp⟩
  · obtain ⟨c, r, hc, hd⟩ := build_tree_nodes_strictExt v (joinKey pre k)
      (joinKey_ne_empty pre k hpre) p hp
    exact ⟨c :: r, hc, by rw [hd, joinKey_data pre k hpre]; simp⟩

theorem tree_iblock_decomp {v : PyVal} {pre p : String} {i : Nat}
    (hp : p = idxSeg pre i ∨ p ∈ build_tree_nodes v (idxSeg pre i)) :
    ∃ r, sepTail r ∧ p.data = pre.data ++ '[' :: ((natStr i).data ++ (']' :: r)) := by
  rcases hp with rfl | hp
  · exact ⟨[], trivial, by rw [idxSeg_data]⟩
  · obtain ⟨c, r, hc, hd⟩ := build_tree_nodes_strictExt v (idxSeg pre i)
      (idxSeg_ne_empty pre i) p hp
    exact ⟨c :: r, hc, by rw [hd, idxSeg_data]; simp⟩

theorem keyed_paths_ne {pre k k2 p : String} {r r2 : List Char}
    (hgk : goodKeyB k = true) (hgk2 : goodKeyB k2 = true) (hkk : k ≠ k2)
    (hs : sepTail r) (hs2 : sepTail r2)
    (hd : p.data = pre.data ++ '.' :: (k.data ++ r))
    (hd2 : p.data = pre.data ++ '.' :: (k2.data ++ r2)) : False := by
  rw [hd] at hd2
  have h1 := append_cancel_chars hd2
  simp only [List.cons.injEq, true_and] at h1
  obtain ⟨g1, g2⟩ := goodKeyB_spec hgk
  obtain ⟨g3, g4⟩ := goodKeyB_spec hgk2
  have := key_run_sep k.data k2.data r r2 g1 g2 g3 g4 hs hs2 h1
  exact hkk (data_eq_imp_eq this.1)

theorem indexed_paths_ne {pre p : String} {i j : Nat} {r r2 : List Char}
    (hij : i ≠ j) (_hs : sepTail r) (_hs2 : sepTail r2)
    (hd : p.data = pre.data ++ '[' :: ((natStr i).data ++ (']' :: r)))
    (hd2 : p.data = pre.data ++ '[' :: ((natStr j).data ++ (']' :: r2))) : False := by
  rw [hd] at hd2
  have h1 := append_cancel_chars hd2
  simp only [List.cons.injEq, true_and] at h1
  have hni := natStr_no_sep i
  have hnj := natStr_no_sep j
  have := split_at_char (natStr i).data (natStr j).data r r2 ']' hni.1 hnj.1 h1
  exact hij (natStr_inj (data_eq_imp_eq this.1))

theorem tree_nodup_master : ∀ (n : Nat),
    (∀ (d : PyVal) (pre : String), sizeOf d ≤ n → pre ≠ "" → goodB d = true →
      (build_tree_nodes d pre).Nodup)
    ∧ (∀ (kvs : List (String × PyVal)) (pre : String), sizeOf kvs ≤ n → pre ≠ "" →
      goodKVsB kvs = true → (treeKVs kvs pre).Nodup)
    ∧ (∀ (xs : List PyVal) (pre : String) (i : Nat), sizeOf xs ≤ n → pre ≠ "" →
      goodListB xs = true → (treeElems xs pre i).Nodup) := by
  intro n
  induction n using Nat.strong_induction_on with
  | _ n ih =>
    refine ⟨?_, ?_, ?_⟩
    · intro d pre hle hpre hg
      cases d with
      | dict kvs =>
        have h1 : sizeOf kvs < n := by simp at hle; omega
        simp only [build_tree_nodes]
        exact (ih _ h1).2.1 kvs pre (le_refl _) hpre (by simpa [goodB] using hg)
      | list xs =>
        have h1 : sizeOf xs < n := by simp at hle; omega
        simp only [build_tree_nodes]
        exact (ih _ h1).2.2 xs pre 0 (le_refl _) hpre (by simpa [goodB] using hg)
      | none => simp [build_tree_nodes]
      | bool b => simp [build_tree_nodes]
      | int m => simp [build_tree_nodes]
      | float q => simp [build_tree_nodes]
      | str s => simp [build_tree_nodes]
    · intro kvs pre hle hpre hg
      cases kvs with
      | nil => simp [treeKVs]
      | cons hd rest =>
        obtain ⟨k, v⟩ := hd
        have hv : sizeOf v < n := by simp at hle; omega
        have hrsz : sizeOf rest < n := by simp at hle; omega
        simp only [goodKVsB, Bool.and_eq_true] at hg
        obtain ⟨hgk, hglk, hgv, hgrest⟩ := hg
        simp only [treeKVs]
        rw [List.nodup_append]
        refine ⟨?_, (ih _ hrsz).2.1 rest pre (le_refl _) hpre hgrest, ?_⟩
        · rw [List.nodup_cons]
          refine ⟨?_, (ih _ hv).1 v (joinKey pre k) (le_refl _)
            (joinKey_ne_empty pre k hpre) hgv⟩
          intro hmem
          exact strictExt_ne (build_tree_nodes_strictExt v (joinKey pre k)
            (joinKey_ne_empty pre k hpre) _ hmem) rfl
        · intro p hp1 hp2
          obtain ⟨r1, hs1, hd1⟩ := tree_block_decomp hpre (List.mem_cons.mp hp1)
          obtain ⟨k2, v2, r2, hm2, hs2, hd2⟩ := treeKVs_decomp rest pre hpre p hp2
          have hkk : k ≠ k2 := by
            intro he
            subst he
            rw [lookup_isSome_of_mem hm2] at hglk
            simp at hglk
          exact keyed_paths_ne hgk (goodKVsB_mem hgrest hm2) hkk hs1 hs2 hd1 hd2
    · intro xs pre i hle hpre hg
      cases xs with
      | nil => simp [treeElems]
      | cons v rest =>
        have hv : sizeOf v < n := by simp at hle; omega
        have hrsz : sizeOf rest < n := by simp at hle; omega
        simp only [goodListB, Bool.and_eq_true] at hg
        obtain ⟨hgv, hgrest⟩ := hg
        simp only [treeElems]
        rw [List.nodup_append]
        refine ⟨?_, (ih _ hrsz).2.2 rest pre (i + 1) (le_refl _) hpre hgrest, ?_⟩
        · rw [List.nodup_cons]
          refine ⟨?_, (ih _ hv).1 v (idxSeg pre i) (le_refl _)
            (idxSeg_ne_empty pre i) hgv⟩
          intro hmem
          exact strictExt_ne (build_tree_nodes_strictExt v (idxSeg pre i)
            (idxSeg_ne_empty pre i) _ hmem) rfl
        · intro p hp1 hp2
          obtain ⟨r1, hs1, hd1⟩ := tree_iblock_decomp (List.mem_cons.mp hp1)
          obtain ⟨j, r2, hij, _, hs2, hd2⟩ := treeElems_decomp rest pre (i + 1) hpre p hp2
          exact indexed_paths_ne (by omega) hs1 hs2 hd1 hd2

theorem goodRootB_parts {k : String} {v : PyVal} {rest : List (String × PyVal)}
    (hg : goodRootB ((k, v) :: rest) = true) :
    k ≠ "" ∧ goodKeyB k = true ∧ (rest.lookup k).isSome = false ∧
      goodB v = true ∧ goodRootB rest = true := by
  simp only [goodRootB, Bool.and_eq_true] at hg
  obtain ⟨h1, h2, h3, h4, h5⟩ := hg
  refine ⟨by simpa using h1, h2, by simpa using h3, h4, h5⟩

theorem goodRootB_mem {l : List (String × PyVal)} {k : String} {v : PyVal}
    (hg : goodRootB l = true) (hm : (k, v) ∈ l) :
    k ≠ "" ∧ goodKeyB k = true := by
  induction l with
  | nil => cases hm
  | cons hd tl ih =>
    obtain ⟨k1, v1⟩ := hd
    obtain ⟨h1, h2, _, _, h5⟩ := goodRootB_parts hg
    rcases List.mem_cons.mp hm with he | hmem
    · obtain ⟨rfl, rfl⟩ := Prod.mk.injEq .. ▸ he
      exact ⟨h1, h2⟩
    · exact ih h5 hmem

theorem root_block_decomp {v : PyVal} {k p : String} (hk : k ≠ "")
    (hp : p = k ∨ p ∈ build_tree_nodes v k) :
    ∃ r, sepTail r ∧ p.data = k.data ++ r := by
  rcases hp with rfl | hp
  · exact ⟨[], trivial, by simp⟩
  · obtain ⟨c, r, hc, hd⟩ := build_tree_nodes_strictExt v k hk p hp
    exact ⟨c :: r, hc, hd⟩

theorem docTreePaths_decomp {root : List (String × PyVal)}
    (hg : goodRootB root = true) : ∀ p ∈ docTreePaths root,
    ∃ k v r, (k, v) ∈ root ∧ sepTail r ∧ p.data = k.data ++ r := by
  induction root with
  | nil => intro p hp; simp [docTreePaths] at hp
  | cons hd rest ih =>
    obtain ⟨k, v⟩ := hd
    obtain ⟨h1, _, _, _, h5⟩ := goodRootB_parts hg
    intro p hp
    simp only [docTreePaths, List.flatMap_cons, List.mem_append, List.mem_cons] at hp
    rcases hp with hp | hp
    · obtain ⟨r, hs, hd2⟩ := root_block_decomp h1 hp
      exact ⟨k, v, r, List.mem_cons_self _ _, hs, hd2⟩
    · obtain ⟨k2, v2, r, hm, hs, hd2⟩ := ih h5 p hp
      exact ⟨k2, v2, r, List.mem_cons_of_mem _ hm, hs, hd2⟩

theorem root_keyed_ne {k k2 p : String} {r r2 : List Char}
    (hgk : goodKeyB k = true) (hgk2 : goodKeyB k2 = true) (hkk : k ≠ k2)
    (hs : sepTail r) (hs2 : sepTail r2)
    (hd : p.data = k.data ++ r) (hd2 : p.data = k2.data ++ r2) : False := by
  rw [hd] at hd2
  obtain ⟨g1, g2⟩ := goodKeyB_spec hgk
  obtain ⟨g3, g4⟩ := goodKeyB_spec hgk2
  have := key_run_sep k.data k2.data r r2 g1 g2 g3 g4 hs hs2 hd2
  exact hkk (data_eq_imp_eq this.1)

theorem docTreePaths_nodup : ∀ (root : List (String × PyVal)),
    goodRootB root = true → (docTreePaths root).Nodup := by
  intro root
  induction root with
  | nil => intro _; simp [docTreePaths]
  | cons hd rest ih =>
    obtain ⟨k, v⟩ := hd
    intro hg
    obtain ⟨h1, h2, h3, h4, h5⟩ := goodRootB_parts hg
    simp only [docTreePaths, List.flatMap_cons]
    rw [List.nodup_append]
    refine ⟨?_, ih h5, ?_⟩
    · rw [List.nodup_cons]
      refine ⟨?_, (tree_nodup_master (sizeOf v)).1 v k (le_refl _) h1 h4⟩
      intro hmem
      exact strictExt_ne (build_tree_nodes_strictExt v k h1 _ hmem) rfl
    · intro p hp1 hp2
      obtain ⟨r1, hs1, hd1⟩ := root_block_decomp h1 (List.mem_cons.mp hp1)
      obtain ⟨k2, v2, r2, hm2, hs2, hd2⟩ := docTreePaths_decomp h5 p hp2
      have hkk : k ≠ k2 := by
        intro he
        subst he
        rw [lookup_isSome_of_mem hm2] at h3
        simp at h3
      exact root_keyed_ne h2 (goodRootB_mem h5 hm2).2 hkk hs1 hs2 hd1 hd2

theorem panelEntries_int (m : Int) (pre : String) :
    panelEntries (PyVal.int m) pre = [(pre, pyStr (PyVal.int m))] := by
  rw [panelEntries.eq_def]

theorem panelEntries_scalar {v : PyVal} (pre : String) (h : isScalarV v = true) :
    panelEntries v pre = [(pre, pyStr v)] := by
  cases v <;> simp [isScalarV] at h <;> rw [panelEntries.eq_def]

theorem panel_decomp_master : ∀ (n : Nat),
    (∀ (d : PyVal) (pre : String), sizeOf d ≤ n → pre ≠ "" →
      ∀ p ∈ (panelEntries d pre).map Prod.fst,
        ∃ r, sepTail r ∧ p.data = pre.data ++ r)
    ∧ (∀ (kvs : List (String × PyVal)) (pre : String), sizeOf kvs ≤ n → pre ≠ "" →
      ∀ p ∈ (peKVs kvs pre).map Prod.fst, ∃ k v r, (k, v) ∈ kvs ∧ sepTail r ∧
        p.data = pre.data ++ '.' :: (k.data ++ r))
    ∧ (∀ (xs : List PyVal) (pre : String) (i : Nat), sizeOf xs ≤ n → pre ≠ "" →
      ∀ p ∈ (peElems xs pre i).map Prod.fst, ∃ j r, i ≤ j ∧ j < i + xs.length ∧
        sepTail r ∧ p.data = pre.data ++ '[' :: ((natStr j).data ++ (']' :: r))) := by
  intro n
  induction n using Nat.strong_induction_on with
  | _ n ih =>
    refine ⟨?_, ?_, ?_⟩
    · intro d pre hle hpre p hp
      cases hsc : isScalarV d with
      | true =>
        rw [panelEntries_scalar pre hsc] at hp
        simp at hp
        exact ⟨[], trivial, by simp [hp]⟩
      | false =>
        cases d with
        | dict kvs =>
          have h1 : sizeOf kvs < n := by simp at hle; omega
          rw [panelEntries.eq_def] at hp
          obtain ⟨k, v, r, _, _, hd⟩ := (ih _ h1).2.1 kvs pre (le_refl _) hpre p hp
          exact ⟨'.' :: (k.data ++ r), Or.inl rfl, hd⟩
        | list xs =>
          have h1 : sizeOf xs < n := by simp at hle; omega
          rw [panelEntries.eq_def] at hp
          obtain ⟨j, r, _, _, _, hd⟩ := (ih _ h1).2.2 xs pre 0 (le_refl _) hpre p hp
          exact ⟨'[' :: ((natStr j).data ++ (']' :: r)), Or.inr rfl, hd⟩
        | none => simp [isScalarV] at hsc
        | bool b => simp [isScalarV] at hsc
        | int m => simp [isScalarV] at hsc
        | float q => simp [isScalarV] at hsc
        | str s => simp [isScalarV] at hsc
    · intro kvs pre hle hpre p hp
      cases kvs with
      | nil => simp [peKVs] at hp
      | cons hd rest =>
        obtain ⟨k, v⟩ := hd
        have hv : sizeOf v < n := by simp at hle; omega
        have hrsz : sizeOf rest < n := by simp at hle; omega
        simp only [peKVs, List.map_append, List.mem_append] at hp
        rcases hp with hp | hp
        · obtain ⟨r, hs, hd2⟩ := (ih _ hv).1 v (joinKey pre k) (le_refl _)
            (joinKey_ne_empty pre k hpre) p hp
          refine ⟨k, v, r, List.mem_cons_self _ _, hs, ?_⟩
          rw [hd2, joinKey_data pre k hpre]
          simp
        · obtain ⟨k2, v2, r, hm, hs, hd2⟩ := (ih _ hrsz).2.1 rest pre (le_refl _) hpre p hp
          exact ⟨k2, v2, r, List.mem_cons_of_mem _ hm, hs, hd2⟩
    · intro xs pre i hle hpre p hp
      cases xs with
      | nil => simp [peElems] at hp
      | cons v rest =>
        have hv : sizeOf v < n := by simp at hle; omega
        have hrsz : sizeOf rest < n := by simp at hle; omega
        simp only [peElems, List.map_append, List.mem_append] at hp
        rcases hp with hp | hp
        · obtain ⟨r, hs, hd2⟩ := (ih _ hv).1 v (idxSeg pre i) (le_refl _)
            (idxSeg_ne_empty pre i) p hp
          refine ⟨i, r, le_refl _, by simp, hs, ?_⟩
          rw [hd2, idxSeg_data]
          simp
        · obtain ⟨j, r, hij, hjlt, hs, hd2⟩ :=
            (ih _ hrsz).2.2 rest pre (i + 1) (le_refl _) hpre p hp
          refine ⟨j, r, by omega, by simp at hjlt ⊢; omega, hs, hd2⟩

theorem panelPaths_decomp (d : PyVal) (pre : String) (hpre : pre ≠ "") :
    ∀ p ∈ (panelEntries d pre).map Prod.fst,
      ∃ r, sepTail r ∧ p.data = pre.data ++ r :=
  (panel_decomp_master (sizeOf d)).1 d pre (le_refl _) hpre

theorem peKVs_decomp (kvs : List (String × PyVal)) (pre : String) (hpre : pre ≠ "") :
    ∀ p ∈ (peKVs kvs pre).map Prod.fst,
      ∃ k v r, (k, v) ∈ kvs ∧ sepTail r ∧
        p.data = pre.data ++ '.' :: (k.data ++ r) :=
  (panel_decomp_master (sizeOf kvs)).2.1 kvs pre (le_refl _) hpre

theorem peElems_decomp (xs : List PyVal) (pre : String) (i : Nat) (hpre : pre ≠ "") :
    ∀ p ∈ (peElems xs pre i).map Prod.fst,
      ∃ j r, i ≤ j ∧ j < i + xs.length ∧ sepTail r ∧
        p.data = pre.data ++ '[' :: ((natStr j).data ++ (']' :: r)) :=
  (panel_decomp_master (sizeOf xs)).2.2 xs pre i (le_refl _) hpre

theorem panel_nodup_master : ∀ (n : Nat),
    (∀ (d : PyVal) (pre : String), sizeOf d ≤ n → pre ≠ "" → goodB d = true →
      ((panelEntries d pre).map Prod.fst).Nodup)
    ∧ (∀ (kvs : List (String × PyVal)) (pre : String), sizeOf kvs ≤ n → pre ≠ "" →
      goodKVsB kvs = true → ((peKVs kvs pre).map Prod.fst).Nodup)
    ∧ (∀ (xs : List PyVal) (pre : String) (i : Nat), sizeOf xs ≤ n → pre ≠ "" →
      goodListB xs = true → ((peElems xs pre i).map Prod.fst).Nodup) := by
  intro n
  induction n using Nat.strong_induction_on with
  | _ n ih =>
    refine ⟨?_, ?_, ?_⟩
    · intro d pre hle hpre hg
      cases hsc : isScalarV d with
      | true => rw [panelEntries_scalar pre hsc]; simp
      | false =>
        cases d with
        | dict kvs =>
          have h1 : sizeOf kvs < n := by simp at hle; omega
          rw [panelEntries.eq_def]
          exact (ih _ h1).2.1 kvs pre (le_refl _) hpre (by simpa [goodB] using hg)
        | list xs =>
          have h1 : sizeOf xs < n := by simp at hle; omega
          rw [panelEntries.eq_def]
          exact (ih _ h1).2.2 xs pre 0 (le_refl _) hpre (by simpa [goodB] using hg)
        | none => simp [isScalarV] at hsc
        | bool b => simp [isScalarV] at hsc
        | int m => simp [isScalarV] at hsc
        | float q => simp [isScalarV] at hsc
        | str s => simp [isScalarV] at hsc
    · intro kvs pre hle hpre hg
      cases kvs with
      | nil => simp [peKVs]
      | cons hd rest =>
        obtain ⟨k, v⟩ := hd
        have hv : sizeOf v < n := by simp at hle; omega
        have hrsz : sizeOf rest < n := by simp at hle; omega
        simp only [goodKVsB, Bool.and_eq_true] at hg
        obtain ⟨hgk, hglk, hgv, hgrest⟩ := hg
        simp only [peKVs, List.map_append]
        rw [List.nodup_append]
        refine ⟨(ih _ hv).1 v (joinKey pre k) (le_refl _)
          (joinKey_ne_empty pre k hpre) hgv,
          (ih _ hrsz).2.1 rest pre (le_refl _) hpre hgrest, ?_⟩
        intro p hp1 hp2
        obtain ⟨r1, hs1, hd1⟩ := panelPaths_decomp v (joinKey pre k)
          (joinKey_ne_empty pre k hpre) p hp1
        rw [joinKey_data pre k hpre] at hd1
        obtain ⟨k2, v2, r2, hm2, hs2, hd2⟩ := peKVs_decomp rest pre hpre p hp2
        have hkk : k ≠ k2 := by
          intro he
          subst he
          rw [lookup_isSome_of_mem hm2] at hglk
          simp at hglk
        exact keyed_paths_ne hgk (goodKVsB_mem hgrest hm2) hkk hs1 hs2
          (by rw [hd1]; simp) hd2
    · intro xs pre i hle hpre hg
      cases xs with
      | nil => simp [peElems]
      | cons v rest =>
        have hv : sizeOf v < n := by simp at hle; omega
        have hrsz : sizeOf rest < n := by simp at hle; omega
        simp only [goodListB, Bool.and_eq_true] at hg
        obtain ⟨hgv, hgrest⟩ := hg
        simp only [peElems, List.map_append]
        rw [List.nodup_append]
        refine ⟨(ih _ hv).1 v (idxSeg pre i) (le_refl _)
          (idxSeg_ne_empty pre i) hgv,
          (ih _ hrsz).2.2 rest pre (i + 1) (le_refl _) hpre hgrest, ?_⟩
        intro p hp1 hp2
        obtain ⟨r1, hs1, hd1⟩ := panelPaths_decomp v (idxSeg pre i)
          (idxSeg_ne_empty pre i) p hp1
        rw [idxSeg_data] at hd1
        obtain ⟨j, r2, hij, _, hs2, hd2⟩ := peElems_decomp rest pre (i + 1) hpre p hp2
        have hd1b : p.data = pre.data ++ '[' :: ((natStr i).data ++ (']' :: r1)) := by
          rw [hd1]
          simp
        exact indexed_paths_ne (i := i) (j := j) (by omega) hs1 hs2 hd1b hd2

theorem docPanelPaths_decomp : ∀ (root : List (String × PyVal)),
    goodRootB root = true → ∀ p ∈ docPanelPaths root,
    ∃ k v r, (k, v) ∈ root ∧ sepTail r ∧ p.data = k.data ++ r := by
  intro root
  induction root with
  | nil => intro _ p hp; simp [docPanelPaths] at hp
  | cons hd rest ih =>
    obtain ⟨k3, v3⟩ := hd
    intro hg p hp
    obtain ⟨hh1, _, _, _, hh5⟩ := goodRootB_parts hg
    simp only [docPanelPaths, List.flatMap_cons, List.mem_append] at hp
    rcases hp with hp | hp
    · obtain ⟨r2, hs2, hd2⟩ := panelPaths_decomp v3 k3 hh1 p hp
      exact ⟨k3, v3, r2, List.mem_cons_self _ _, hs2, hd2⟩
    · obtain ⟨k4, v4, r4, hm4, hs4, hd4⟩ := ih hh5 p hp
      exact ⟨k4, v4, r4, List.mem_cons_of_mem _ hm4, hs4, hd4⟩

theorem docPanelPaths_nodup : ∀ (root : List (String × PyVal)),
    goodRootB root = true → (docPanelPaths root).Nodup := by
  intro root
  induction root with
  | nil => intro _; simp [docPanelPaths]
  | cons hd rest ih =>
    obtain ⟨k, v⟩ := hd
    intro hg
    obtain ⟨h1, h2, h3, h4, h5⟩ := goodRootB_parts hg
    simp only [docPanelPaths, List.flatMap_cons]
    rw [List.nodup_append]
    refine ⟨(panel_nodup_master (sizeOf v)).1 v k (le_refl _) h1 h4, ih h5, ?_⟩
    intro p hp1 hp2
    obtain ⟨r1, hs1, hd1⟩ := panelPaths_decomp v k h1 p hp1
    obtain ⟨k2, v2, r2, hm2, hs2, hd2⟩ := docPanelPaths_decomp rest h5 p hp2
    have hkk : k ≠ k2 := by
      intro he
      subst he
      rw [lookup_isSome_of_mem hm2] at h3
      simp at h3
    exact root_keyed_ne h2 (goodRootB_mem h5 hm2).2 hkk hs1 hs2 hd1 hd2

theorem panelEntries_dict (kvs : List (String × PyVal)) (pre : String) :
    panelEntries (PyVal.dict kvs) pre = peKVs kvs pre := by
  rw [panelEntries.eq_def]

/-- A document with a top-level key equal to a nested dotted path. -/
def badRoot : List (String × PyVal) :=
  [("a", PyVal.dict [("b", PyVal.int 1)]), ("a.b", PyVal.int 2)]

/-- Counterexample to C7 as stated: in the document with sections "a"
(an object with key "b") and "a.b" (a scalar), the tree builder creates
two distinct nodes with the same path "a.b" (the nested node under "a"
and the root node of section "a.b"), and the panel renderer likewise
assigns the path "a.b" to two distinct entries. -/
theorem path_uniqueness_counterexample :
    ¬(docTreePaths badRoot).Nodup ∧ ¬(docPanelPaths badRoot).Nodup := by
  constructor
  · have he : docTreePaths badRoot = ["a", joinKey "a" "b", "a.b"] := by
      simp [docTreePaths, badRoot, build_tree_nodes, treeKVs]
    rw [he]
    decide
  · have he : docPanelPaths badRoot = [joinKey "a" "b", "a.b"] := by
      simp [docPanelPaths, badRoot, panelEntries_dict, peKVs, panelEntries_int]
    rw [he]
    decide

/-- C7 (amended): for a loaded document whose object keys contain
neither '.' nor '[' at any level and are pairwise distinct per object
(as Python dict keys always are), and whose top-level keys are
non-empty, no two distinct nodes created by the tree builder share a
path string, and no two distinct entries created by the panel renderer
share a path string. -/
theorem path_uniqueness_spec (root : List (String × PyVal))
    (h : goodRootB root = true) :
    (docTreePaths root).Nodup ∧ (docPanelPaths root).Nodup :=
  ⟨docTreePaths_nodup root h, docPanelPaths_nodup root h⟩

/-- Example document with nesting, arrays and several sections. -/
def exRoot : List (String × PyVal) :=
  [("a", PyVal.dict [("b", PyVal.int 1),
     ("c", PyVal.list [PyVal.int 2, PyVal.str "x"])]),
   ("d", PyVal.int 3)]

/-- Witness for C7 (amended): the example document's tree paths and
panel paths are each duplicate-free. -/
theorem path_uniqueness_spec_witness :
    (docTreePaths exRoot).Nodup ∧ (docPanelPaths exRoot).Nodup :=
  path_uniqueness_spec exRoot (by
    simp [exRoot, goodRootB, goodB, goodKVsB, goodListB, goodKeyB, List.lookup])

end JsonVis
